import Mathlib

/-!
Shallow embedding of the road-network processing script
`TB1/CódigoCompletoTB1.py`: construction of a weighted adjacency list from
raw OSM-style node/edge records (with one-way resolution and default
substitution), distance-to-time conversion, BFS connected components,
reduction to the principal component, and the size-bounded subgraph
sampler.

Modelling conventions:
* Python floats are modelled as exact rationals; `round(x, 2)` is modelled
  as round-half-to-even of the exact value at two decimals.
* Python dicts are modelled as association lists with
  overwrite-on-assignment semantics (`dictSet`); a `dict[k]` access that
  can raise `KeyError` is modelled with `Option`, while `dict.get(k, d)`
  is modelled as a total lookup with default `d`.
* The values Python compares the `oneway` attribute against are modelled
  by `PyVal` together with Python's `==` (`pyEq`, under which booleans
  equal the corresponding integers) and Python truthiness (`pyFalsy`).
* The random source (`random.choice`, `random.shuffle`) is made explicit:
  the sampler takes the chosen start node and a shuffle function as
  parameters; theorems assume only that the shuffle permutes its input.
-/

abbrev Node := Nat

/-- An adjacency entry `(vecino, length_metros, tiempo_minutos)`. -/
abbrev Vecino := Node × ℚ × ℚ

/-- The adjacency dict `lista_ady`, as an association list. -/
abbrev AdjMap := List (Node × List Vecino)

/-- The node-attribute dict `nodos_info` mapping a node to `(x, y)`. -/
abbrev NodeMap := List (Node × ℚ × ℚ)

/-- A raw OSM node record: id plus optional `x` and `y` attributes. -/
abbrev RawNode := Node × Option ℚ × Option ℚ

/-- A Python value as far as the script's `oneway` handling observes it. -/
inductive PyVal where
  | none
  | bool (b : Bool)
  | int (n : Int)
  | str (s : String)
deriving DecidableEq, Repr

/-- Python `==` on the modelled values: `False == 0` and `True == 1`,
strings only equal strings, `None` only equals `None`. -/
def pyEq : PyVal → PyVal → Bool
  | .none, .none => true
  | .bool a, .bool b => a = b
  | .int a, .int b => a = b
  | .bool a, .int b => (if a then (1 : Int) else 0) = b
  | .int a, .bool b => a = (if b then (1 : Int) else 0)
  | .str a, .str b => a = b
  | _, _ => false

/-- Python truthiness: `None`, `False`, `0` and `""` are falsy. -/
def pyFalsy : PyVal → Bool
  | .none => true
  | .bool b => !b
  | .int n => n = 0
  | .str s => s = ""

/-- A raw OSM edge record `(u, v, data)` with the attributes the edge loop
reads: optional `length` and the `oneway` attribute (`PyVal.none` when
absent, matching `data.get('oneway', None)`). -/
structure RawEdge where
  u : Node
  v : Node
  len : Option ℚ
  oneway : PyVal
deriving DecidableEq, Repr

/-- The membership test `oneway in (False, 'false', 'False', 0, None)`
from the edge-construction loop. -/
def esDobleSentido (oneway : PyVal) : Bool :=
  pyEq oneway (.bool false) || pyEq oneway (.str "false") ||
    pyEq oneway (.str "False") || pyEq oneway (.int 0) || pyEq oneway .none

/-- The spec's wording for the reverse-insertion condition: the one-way
attribute is absent, false, or any falsy representation. -/
def specBidireccional (oneway : PyVal) : Bool :=
  (oneway == PyVal.none) || pyFalsy oneway

/-! ## Distance-time converter (`metros_a_minutos`) -/

/-- `velocidad_kmh = 30.0`, the process-wide average-speed constant. -/
def velocidad_kmh : ℚ := 30

/-- Round-half-to-even to an integer, Python's `round` on exact values. -/
def roundHalfEven (q : ℚ) : ℤ :=
  if Int.fract q < 1 / 2 then ⌊q⌋
  else if 1 / 2 < Int.fract q then ⌊q⌋ + 1
  else if ⌊q⌋ % 2 = 0 then ⌊q⌋ else ⌊q⌋ + 1

/-- Python `round(x, 2)` on the exact value. -/
def pyRound2 (q : ℚ) : ℚ := (roundHalfEven (q * 100) : ℚ) / 100

/-- The intermediate `minutos` value of `metros_a_minutos` before the
final rounding: `distancia_km = dist_m / 1000.0`;
`minutos = (distancia_km / velocidad_kmh) * 60.0`. -/
def minutosSinRedondear (dist_m : ℚ) : ℚ :=
  dist_m / 1000 / velocidad_kmh * 60

/-- `metros_a_minutos`: convert metres to minutes, `round(minutos, 2)`. -/
def metros_a_minutos (dist_m : ℚ) : ℚ :=
  pyRound2 (minutosSinRedondear dist_m)

/-- The spec's formula `(distance_m / 1000 / speed_kmh) * 60`, rounded to
two decimal places, with the speed as an explicit parameter. -/
def specTimeMinutes (dist_m speed_kmh : ℚ) : ℚ :=
  pyRound2 (dist_m / 1000 / speed_kmh * 60)

/-! ## Adjacency builder -/

/-- Python dict assignment `m[k] = v` on an association list: overwrite
the value at an existing key (keeping its position), else append. -/
def dictSet {α : Type} (m : List (Node × α)) (k : Node) (v : α) :
    List (Node × α) :=
  if m.any (fun p => p.1 == k) then
    m.map (fun p => if p.1 == k then (k, v) else p)
  else m ++ [(k, v)]

/-- One iteration of the node-extraction loop:
`x = data.get('x', 0.0)`, `y = data.get('y', 0.0)`,
`nodos_info[nodo] = (x, y)`, `lista_ady[nodo] = []`. -/
def pasoNodo (acc : NodeMap × AdjMap) (rn : RawNode) : NodeMap × AdjMap :=
  (dictSet acc.1 rn.1 (rn.2.1.getD 0, rn.2.2.getD 0), dictSet acc.2 rn.1 [])

/-- The node-extraction loop over all raw node records. -/
def buildNodes (rawNodes : List RawNode) : NodeMap × AdjMap :=
  rawNodes.foldl pasoNodo ([], [])

/-- `lista_ady[u].append(e)`: `none` models the `KeyError` raised when `u`
is not a key. -/
def appendEdge? (la : AdjMap) (u : Node) (e : Vecino) : Option AdjMap :=
  if la.any (fun p => p.1 == u) then
    some (la.map (fun p => if p.1 == u then (p.1, p.2 ++ [e]) else p))
  else none

/-- The resolved length of a raw edge: `data.get('length', None)` with
the missing value replaced by the default `100.0` metres. -/
def pesoArista (e : RawEdge) : ℚ := e.len.getD 100

/-- The edge's travel time, `tiempo = metros_a_minutos(length)`. -/
def tiempoArista (e : RawEdge) : ℚ := metros_a_minutos (pesoArista e)

/-- One iteration of the edge-construction loop: resolve the missing
length to `100.0`, compute the time, append the forward tuple to `u`'s
adjacency, and append the reverse tuple to `v`'s adjacency when
`oneway in (False, 'false', 'False', 0, None)`. -/
def procesaArista (la : AdjMap) (e : RawEdge) : Option AdjMap := do
  let la1 ← appendEdge? la e.u (e.v, pesoArista e, tiempoArista e)
  if esDobleSentido e.oneway then
    appendEdge? la1 e.v (e.u, pesoArista e, tiempoArista e)
  else pure la1

/-- The whole adjacency builder: the node loop followed by the edge loop. -/
def construirAdy (rawNodes : List RawNode) (rawEdges : List RawEdge) :
    Option (NodeMap × AdjMap) := do
  let (ni, la0) := buildNodes rawNodes
  let la ← rawEdges.foldlM procesaArista la0
  some (ni, la)

/-! ## Lookups -/

/-- The keys of an adjacency dict, in insertion order. -/
def adjKeys (la : AdjMap) : List Node := la.map (fun p => p.1)

/-- The key set of an adjacency dict. -/
def adjKeysF (la : AdjMap) : Finset Node := (adjKeys la).toFinset

/-- The key set of the node-attribute dict. -/
def nodeKeysF (ni : NodeMap) : Finset Node :=
  (ni.map (fun p => p.1)).toFinset

/-- The ids appearing in the raw node iterable. -/
def nodeIds (rawNodes : List RawNode) : List Node :=
  rawNodes.map (fun p => p.1)

/-- Dict lookup on an association list: the first entry with the key. -/
def dictGet? {α : Type} (m : List (Node × α)) (n : Node) : Option α :=
  match m with
  | [] => Option.none
  | p :: rest => if p.1 == n then some p.2 else dictGet? rest n

/-- `lista_ady[n]` as an `Option`. -/
def lookupAdj? (la : AdjMap) (n : Node) : Option (List Vecino) :=
  dictGet? la n

/-- `grafo_adj.get(n, [])`. -/
def lookupAdjD (la : AdjMap) (n : Node) : List Vecino :=
  (lookupAdj? la n).getD []

/-- `nodos_info[n]` as an `Option`. -/
def lookupNode? (ni : NodeMap) (n : Node) : Option (ℚ × ℚ) :=
  dictGet? ni n

/-- The neighbour ids reachable in one hop from `n`. -/
def vecinosIds (la : AdjMap) (n : Node) : List Node :=
  (lookupAdjD la n).map (fun v => v.1)

/-! ## BFS component finder (`BFS_componente`) -/

/-- The inner `for vecino_info in grafo_adj.get(nodo, [])` loop of
`BFS_componente`: enqueue each not-yet-visited neighbour and mark it
visited. -/
def procesaVecinos :
    List Node → List Node → Finset Node → List Node × Finset Node
  | [], cola, visitados => (cola, visitados)
  | v :: rest, cola, visitados =>
    if v ∈ visitados then procesaVecinos rest cola visitados
    else procesaVecinos rest (cola ++ [v]) (insert v visitados)

/-- Every node id occurring in the adjacency dict, as key or neighbour. -/
def allNodes (la : AdjMap) : Finset Node :=
  adjKeysF la ∪
    la.foldr (fun p s => (p.2.map (fun v => v.1)).toFinset ∪ s) ∅

/-- The `while colaAuxiliar:` loop of `BFS_componente`.  The loop body
never revisits a node, so each dequeue either shrinks the queue or
consumes one enqueue of a fresh node; the explicit fuel
`2 * (allNodes la).card + 2` strictly dominates the decreasing measure
`2 * |allNodes \ visitados| + |cola|` and is therefore never exhausted
(`bfsLoop_cerrado` relies on exactly this bound). -/
def bfsLoop (la : AdjMap) : Nat → List Node → Finset Node → Finset Node
  | 0, _, visitados => visitados
  | _ + 1, [], visitados => visitados
  | fuel + 1, nodo :: rest, visitados =>
    let p := procesaVecinos (vecinosIds la nodo) rest visitados
    bfsLoop la fuel p.1 p.2

/-- `BFS_componente(grafo_adj, inicio)`: the set of nodes reachable from
`inicio`, starting from queue `[inicio]` and `visitados = {inicio}`. -/
def BFS_componente (la : AdjMap) (inicio : Node) : Finset Node :=
  bfsLoop la (2 * (allNodes la).card + 2) [inicio] {inicio}

/-- One arc of the adjacency: `y` occurs in `x`'s neighbour list. -/
def Paso (la : AdjMap) (x y : Node) : Prop := y ∈ vecinosIds la x

/-- Reachability along the inserted arcs. -/
def Reach (la : AdjMap) : Node → Node → Prop :=
  Relation.ReflTransGen (Paso la)

/-- The component-discovery loop `for nodo in todos_nodos:` — run a BFS
from every node not yet globally visited, collecting the results.  The
iteration order over the node set is the explicit list argument. -/
def componentesAux (la : AdjMap) : List Node → Finset Node → List (Finset Node)
  | [], _ => []
  | n :: rest, visG =>
    if n ∈ visG then componentesAux la rest visG
    else BFS_componente la n :: componentesAux la rest (visG ∪ BFS_componente la n)

/-- The list of discovered components for a given iteration order. -/
def componentes (la : AdjMap) (orden : List Node) : List (Finset Node) :=
  componentesAux la orden ∅

/-- Union of a list of node sets. -/
def unionL (l : List (Finset Node)) : Finset Node := l.foldr (· ∪ ·) ∅

/-! ## Principal-component selection (`componente_principal`)

The script builds `componentes_con_tamanio = [(len(c), c), ...]`, runs
`sort(reverse=True)` and takes the first entry.  CPython's sort is stable
and consults only `<`; on tuples `(n₁, c₁) < (n₂, c₂)` compares the sizes
first and the node sets (by subset ordering) only on equal sizes, so two
distinct equal-size components answer `False` to both `<` queries exactly
as an equal pair would.  The observable behaviour is therefore a stable
sort by size descending, modelled by stable insertion sort. -/

/-- Insert into a size-descending list, before the first entry of equal
or smaller size (stability: earlier-discovered entries of the same size
stay first). -/
def insertaDesc (x : ℕ × Finset Node) :
    List (ℕ × Finset Node) → List (ℕ × Finset Node)
  | [] => [x]
  | y :: ys => if y.1 ≤ x.1 then x :: y :: ys else y :: insertaDesc x ys

/-- Stable sort by size, descending. -/
def ordenaDesc : List (ℕ × Finset Node) → List (ℕ × Finset Node)
  | [] => []
  | x :: xs => insertaDesc x (ordenaDesc xs)

/-- `componente_principal`: first entry of the size-sorted component
list, `set()` when no component was discovered. -/
def componente_principal (comps : List (Finset Node)) : Finset Node :=
  match ordenaDesc (comps.map (fun c => (c.card, c))) with
  | [] => ∅
  | p :: _ => p.2

/-- The spec's wording of the selection contract: the component of
maximum cardinality, ties broken by whichever is encountered first in the
discovery enumeration. -/
def specSelectComponent : List (Finset Node) → Finset Node
  | [] => ∅
  | c :: cs =>
    let r := specSelectComponent cs
    if r.card ≤ c.card then c else r

/-! ## Graph reducer -/

/-- A canonical enumeration of a finite node set in ascending id order,
modelling Python's iteration over the set `componente_principal` (the
iteration order of a Python set is unspecified; only which elements are
iterated matters for the rebuilt dicts' key sets and lookups). -/
def sortNodes (s : Finset Node) : List Node :=
  (List.range (s.sup id + 1)).filter (fun n => decide (n ∈ s))

/-- Rebuild the adjacency dict restricted to the principal component:
`nueva_lista_ady[nodo] = [vi for vi in lista_ady[nodo] if vi[0] in cp]`
for each `nodo` in the component (`none` models the `KeyError` when a
component member is not an adjacency key). -/
def restrictAdy (la : AdjMap) (cp : Finset Node) : Option AdjMap :=
  (sortNodes cp).mapM
    (fun n => (lookupAdj? la n).map
      (fun vec => (n, vec.filter (fun vi => decide (vi.1 ∈ cp)))))

/-- Rebuild the node-attribute dict restricted to the component:
`nueva_nodos_info[nodo] = nodos_info[nodo]`. -/
def restrictNodes (ni : NodeMap) (cp : Finset Node) : Option NodeMap :=
  (sortNodes cp).mapM
    (fun n => (lookupNode? ni n).map (fun xy => (n, xy)))

/-- The reduction step: when more than one component was discovered,
replace `lista_ady` and `nodos_info` by their restrictions to the
principal component; with at most one component nothing is rebuilt. -/
def reducePipeline (la : AdjMap) (ni : NodeMap) (orden : List Node) :
    Option (AdjMap × NodeMap) :=
  let comps := componentes la orden
  if comps.length ≤ 1 then some (la, ni)
  else do
    let cp := componente_principal comps
    let la' ← restrictAdy la cp
    let ni' ← restrictNodes ni cp
    some (la', ni')

/-! ## Subgraph sampler (`subgrafo_nodos`) -/

/-- The inner `for vec in vecinos:` loop of the sampling BFS: enqueue a
neighbour when it is unvisited and the safety cap
`len(subgrafo_nodos) + len(colaAuxiliar) < 1000` holds. -/
def encolaMuestra :
    List Node → List Node → Nat → Finset Node → List Node × Finset Node
  | [], cola, _, visitados => (cola, visitados)
  | v :: rest, cola, subLen, visitados =>
    if v ∉ visitados ∧ subLen + cola.length < 1000 then
      encolaMuestra rest (cola ++ [v]) subLen (insert v visitados)
    else encolaMuestra rest cola subLen visitados

/-- The `while len(colaAuxiliar) > 0 and len(subgrafo_nodos) < 100:`
loop.  Every iteration appends exactly one node to the sample, so with
the sample starting empty the loop runs at most 100 iterations; fuel 100
makes the fuel bound coincide exactly with the loop's own size bound. -/
def muestraLoop (la : AdjMap) (shuffle : List Node → List Node) :
    Nat → List Node → List Node → Finset Node → List Node
  | 0, _, sub, _ => sub
  | _ + 1, [], sub, _ => sub
  | fuel + 1, nodo :: rest, sub, visitados =>
    if sub.length < 100 then
      let sub1 := sub ++ [nodo]
      let vecinos := shuffle (vecinosIds la nodo)
      let p := encolaMuestra vecinos rest sub1.length visitados
      muestraLoop la shuffle fuel p.1 sub1 p.2
    else sub

/-- `subgrafo_nodos`: all keys when the graph has at most 100 nodes;
otherwise a randomized BFS from `inicio` (a node chosen by the random
source), topped up with shuffled not-yet-included keys when the walk
stalls early. -/
def subgrafoNodos (la : AdjMap) (shuffle : List Node → List Node)
    (inicio : Node) : List Node :=
  if (adjKeys la).length ≤ 100 then adjKeys la
  else
    let sub := muestraLoop la shuffle 100 [inicio] [] {inicio}
    if sub.length < 100 then
      let faltan := 100 - sub.length
      let extras := shuffle ((adjKeys la).filter (fun n => decide (n ∉ sub)))
      sub ++ extras.take (min faltan extras.length)
    else sub

/-! ## Theorems

First the distance-time converter, then the adjacency builder, then the
component machinery, the reducer and the sampler. -/

theorem roundHalfEven_nonneg (q : ℚ) (h : 0 ≤ q) : 0 ≤ roundHalfEven q := by
  have h0 : (0 : ℤ) ≤ ⌊q⌋ := Int.floor_nonneg.mpr h
  unfold roundHalfEven
  split_ifs <;> omega

theorem metros_a_minutos_nonneg (d : ℚ) (h : 0 ≤ d) :
    0 ≤ metros_a_minutos d := by
  have hm : 0 ≤ minutosSinRedondear d * 100 := by
    unfold minutosSinRedondear velocidad_kmh
    positivity
  have := roundHalfEven_nonneg _ hm
  unfold metros_a_minutos pyRound2
  have hcast : (0 : ℚ) ≤ (roundHalfEven (minutosSinRedondear d * 100) : ℚ) := by
    exact_mod_cast this
  positivity

/-- C8: for every non-negative distance, `metros_a_minutos` returns the
spec's formula `(distance_m / 1000 / speed_kmh) * 60` rounded to two
decimal places (at the configured speed), and the result is non-negative;
the Lean embedding is a total function, so there are no failure modes. -/
theorem converterContract (d : ℚ) (h : 0 ≤ d) :
    metros_a_minutos d = specTimeMinutes d velocidad_kmh ∧
    0 ≤ metros_a_minutos d :=
  ⟨rfl, metros_a_minutos_nonneg d h⟩

theorem converterContract_witness :
    (0 : ℚ) ≤ 100 ∧
      (metros_a_minutos 100 = specTimeMinutes 100 velocidad_kmh ∧
        0 ≤ metros_a_minutos 100) :=
  ⟨by norm_num, converterContract 100 (by norm_num)⟩

/-- C4 fails on the code: with the average speed 30 km/h, a length of 3
metres converts to 0.006 minutes, which rounds to 0.01, while 6 metres
converts to 0.012 minutes, which also rounds to 0.01 — so
`time_minutes(2 × 3) ≠ 2 × time_minutes(3)` although `3 ≥ 0`. -/
theorem conversionLinearity_counterexample :
    (0 : ℚ) ≤ 3 ∧ metros_a_minutos (2 * 3) ≠ 2 * metros_a_minutos 3 := by
  constructor
  · norm_num
  · norm_num [metros_a_minutos, minutosSinRedondear, velocidad_kmh, pyRound2,
      roundHalfEven, Int.fract]

/-- C4 amended: `time_minutes(0) = 0`, and the doubling law holds for the
exact (un-rounded) minutes value computed by the converter; the final
rounding to two decimal places can break the exact doubling identity. -/
theorem conversionLinearity_amended (l : ℚ) (h : 0 ≤ l) :
    metros_a_minutos 0 = 0 ∧
    minutosSinRedondear (2 * l) = 2 * minutosSinRedondear l := by
  refine ⟨?_, ?_⟩
  · norm_num [metros_a_minutos, minutosSinRedondear, velocidad_kmh, pyRound2,
      roundHalfEven, Int.fract]
  · unfold minutosSinRedondear velocidad_kmh
    ring

theorem conversionLinearity_amended_witness :
    (0 : ℚ) ≤ 3 ∧
      (metros_a_minutos 0 = 0 ∧
        minutosSinRedondear (2 * 3) = 2 * minutosSinRedondear 3) :=
  ⟨by norm_num, conversionLinearity_amended 3 (by norm_num)⟩


/-! ### Association-list dictionary lemmas -/

theorem dictGet?_cons {α : Type} (p : Node × α) (m : List (Node × α)) (n : Node) :
    dictGet? (p :: m) n = if p.1 = n then some p.2 else dictGet? m n := by
  by_cases h : p.1 = n <;> simp [dictGet?, h]

theorem dictGet?_isSome {α : Type} (m : List (Node × α)) (n : Node) :
    (dictGet? m n).isSome ↔ n ∈ m.map (fun p => p.1) := by
  induction m with
  | nil => simp [dictGet?]
  | cons p rest ih =>
    rw [dictGet?_cons]
    by_cases h : p.1 = n
    · simp [h]
    · rw [if_neg h, ih]
      simp only [List.map_cons, List.mem_cons]
      constructor
      · exact Or.inr
      · rintro (hc | hm)
        · exact absurd hc.symm h
        · exact hm

theorem dictGet?_overwrite_ne {α : Type} (m : List (Node × α)) (k : Node)
    (v : α) (n : Node) (hne : n ≠ k) :
    dictGet? (m.map (fun p => if p.1 == k then (k, v) else p)) n =
      dictGet? m n := by
  induction m with
  | nil => rfl
  | cons p rest ih =>
    by_cases h : p.1 = k
    · have h1 : p.1 ≠ n := fun hc => hne (hc ▸ h.symm ▸ rfl)
      have h2 : k ≠ n := fun hc => hne hc.symm
      simp only [List.map_cons, h, beq_self_eq_true, if_true]
      rw [dictGet?_cons, dictGet?_cons, if_neg h2, if_neg h1, ih]
    · have hb : (p.1 == k) = false := by simp [h]
      simp only [List.map_cons, hb, Bool.false_eq_true, if_false]
      rw [dictGet?_cons, dictGet?_cons, ih]

theorem dictGet?_overwrite_eq {α : Type} (m : List (Node × α)) (k : Node)
    (v : α) (hmem : m.any (fun p => p.1 == k) = true) :
    dictGet? (m.map (fun p => if p.1 == k then (k, v) else p)) k =
      some v := by
  induction m with
  | nil => simp at hmem
  | cons p rest ih =>
    by_cases h : p.1 = k
    · simp only [List.map_cons, h, beq_self_eq_true, if_true]
      rw [dictGet?_cons]
      simp
    · have hb : (p.1 == k) = false := by simp [h]
      have hrest : rest.any (fun p => p.1 == k) = true := by
        simpa [hb] using hmem
      simp only [List.map_cons, hb, Bool.false_eq_true, if_false]
      rw [dictGet?_cons, if_neg h, ih hrest]

theorem dictGet?_append_single {α : Type} (m : List (Node × α)) (k : Node)
    (v : α) (n : Node) (hnk : dictGet? m n = Option.none ∨ n ≠ k) :
    dictGet? (m ++ [(k, v)]) n =
      if n = k then some v else dictGet? m n := by
  induction m with
  | nil =>
    rw [List.nil_append, dictGet?_cons]
    by_cases h : n = k
    · simp [h]
    · rw [if_neg (fun hc => h hc.symm), if_neg h]
  | cons p rest ih =>
    rw [List.cons_append, dictGet?_cons, dictGet?_cons]
    by_cases h : p.1 = n
    · rcases hnk with hnone | hne
      · rw [dictGet?_cons, if_pos h] at hnone
        exact absurd hnone (by simp)
      · simp [h, hne]
    · rw [if_neg h, if_neg h]
      apply ih
      rcases hnk with hnone | hne
      · rw [dictGet?_cons, if_neg h] at hnone
        exact Or.inl hnone
      · exact Or.inr hne

theorem any_key_false {α : Type} (m : List (Node × α)) (k : Node)
    (hany : ¬ m.any (fun p => p.1 == k) = true) :
    dictGet? m k = Option.none := by
  induction m with
  | nil => rfl
  | cons p rest ih =>
    simp only [List.any_cons, Bool.or_eq_true, not_or] at hany
    rw [dictGet?_cons, if_neg (by simpa using hany.1)]
    exact ih hany.2

theorem dictGet?_dictSet {α : Type} (m : List (Node × α)) (k : Node)
    (v : α) (n : Node) :
    dictGet? (dictSet m k v) n = if n = k then some v else dictGet? m n := by
  unfold dictSet
  by_cases hany : m.any (fun p => p.1 == k) = true
  · rw [if_pos hany]
    by_cases h : n = k
    · subst h
      rw [if_pos rfl, dictGet?_overwrite_eq m n v hany]
    · rw [if_neg h, dictGet?_overwrite_ne m k v n h]
  · rw [if_neg hany, dictGet?_append_single]
    by_cases h : n = k
    · subst h
      exact Or.inl (any_key_false m n hany)
    · exact Or.inr h

theorem dictSet_keys {α : Type} (m : List (Node × α)) (k : Node) (v : α) :
    (dictSet m k v).map (fun p => p.1) =
      if m.any (fun p => p.1 == k) then m.map (fun p => p.1)
      else m.map (fun p => p.1) ++ [k] := by
  unfold dictSet
  split
  · rw [List.map_map]
    apply List.map_congr_left
    intro p _
    by_cases h : p.1 = k <;> simp [h]
  · simp

theorem any_key_iff {α : Type} (m : List (Node × α)) (k : Node) :
    m.any (fun p => p.1 == k) = true ↔ k ∈ m.map (fun p => p.1) := by
  rw [List.any_eq_true]
  constructor
  · rintro ⟨p, hp, hpk⟩
    exact List.mem_map.mpr ⟨p, hp, by simpa using hpk⟩
  · intro h
    rcases List.mem_map.mp h with ⟨p, hp, hpk⟩
    exact ⟨p, hp, by simpa using hpk⟩

theorem dictGet?_mem {α : Type} {m : List (Node × α)} {n : Node} {v : α}
    (h : dictGet? m n = some v) : (n, v) ∈ m := by
  induction m with
  | nil => simp [dictGet?] at h
  | cons p rest ih =>
    rw [dictGet?_cons] at h
    by_cases hp : p.1 = n
    · rw [if_pos hp] at h
      have hv : p.2 = v := by simpa using h
      have hpv : (n, v) = p := by
        rcases p with ⟨a, b⟩
        simp only at hp hv
        rw [hp, hv]
      rw [hpv]
      exact List.mem_cons_self _ _
    · rw [if_neg hp] at h
      exact List.mem_cons_of_mem _ (ih h)

/-! ### Node-extraction lemmas -/

theorem buildNodes_go_preserve (rns : List RawNode) (acc : NodeMap × AdjMap)
    (n : Node) (hn : n ∉ nodeIds rns) :
    dictGet? (rns.foldl pasoNodo acc).1 n = dictGet? acc.1 n ∧
    dictGet? (rns.foldl pasoNodo acc).2 n = dictGet? acc.2 n := by
  induction rns generalizing acc with
  | nil => exact ⟨rfl, rfl⟩
  | cons r rest ih =>
    have hne : n ≠ r.1 := fun hc => hn (by simp [nodeIds, hc])
    have hrest : n ∉ nodeIds rest := fun hc => hn (by simp [nodeIds] at hc ⊢; exact Or.inr hc)
    rw [List.foldl_cons]
    rcases ih (pasoNodo acc r) hrest with ⟨h1, h2⟩
    refine ⟨?_, ?_⟩
    · rw [h1]
      unfold pasoNodo
      rw [dictGet?_dictSet, if_neg hne]
    · rw [h2]
      unfold pasoNodo
      rw [dictGet?_dictSet, if_neg hne]

theorem buildNodes_go_mem (rns : List RawNode) (acc : NodeMap × AdjMap)
    (n : Node) (ox oy : Option ℚ) (hmem : (n, ox, oy) ∈ rns)
    (hnd : (nodeIds rns).Nodup) :
    dictGet? (rns.foldl pasoNodo acc).1 n = some (ox.getD 0, oy.getD 0) ∧
    dictGet? (rns.foldl pasoNodo acc).2 n = some [] := by
  induction rns generalizing acc with
  | nil => simp at hmem
  | cons r rest ih =>
    rw [List.foldl_cons]
    rcases List.mem_cons.mp hmem with hr | hrest
    · have hn : n ∉ nodeIds rest := by
        have := hnd
        rw [show nodeIds (r :: rest) = r.1 :: nodeIds rest from rfl,
          List.nodup_cons] at this
        rw [← hr] at this
        exact this.1
      rcases buildNodes_go_preserve rest (pasoNodo acc r) n hn with ⟨h1, h2⟩
      rw [h1, h2, ← hr]
      unfold pasoNodo
      rw [dictGet?_dictSet, if_pos rfl, dictGet?_dictSet, if_pos rfl]
      exact ⟨rfl, rfl⟩
    · have hnd' : (nodeIds rest).Nodup := by
        rw [show nodeIds (r :: rest) = r.1 :: nodeIds rest from rfl,
          List.nodup_cons] at hnd
        exact hnd.2
      exact ih (pasoNodo acc r) hrest hnd'

/-- C10: every raw node record receives a node-attribute entry with the
missing `x`/`y` coordinates replaced by `0.0`, and an initially empty
adjacency list (stated for raw iterables without duplicate ids, which is
how the node iterable of a graph arrives). -/
theorem nodeExtraction (rawNodes : List RawNode)
    (hnd : (nodeIds rawNodes).Nodup) (n : Node) (ox oy : Option ℚ)
    (hmem : (n, ox, oy) ∈ rawNodes) :
    lookupNode? (buildNodes rawNodes).1 n = some (ox.getD 0, oy.getD 0) ∧
    lookupAdj? (buildNodes rawNodes).2 n = some [] :=
  buildNodes_go_mem rawNodes ([], []) n ox oy hmem hnd

theorem nodeExtraction_witness :
    (nodeIds [((7 : Node), some (5 : ℚ), Option.none),
        ((9 : Node), Option.none, some (2 : ℚ))]).Nodup ∧
      ((7 : Node), some (5 : ℚ), (Option.none : Option ℚ)) ∈
        [((7 : Node), some (5 : ℚ), Option.none),
          ((9 : Node), Option.none, some (2 : ℚ))] ∧
      (lookupNode? (buildNodes [((7 : Node), some (5 : ℚ), Option.none),
          ((9 : Node), Option.none, some (2 : ℚ))]).1 7 = some (5, 0) ∧
        lookupAdj? (buildNodes [((7 : Node), some (5 : ℚ), Option.none),
          ((9 : Node), Option.none, some (2 : ℚ))]).2 7 = some []) :=
  ⟨by decide, by decide,
    nodeExtraction _ (by decide) 7 (some 5) Option.none (by decide)⟩

/-! ### Edge-construction lemmas -/

theorem dictGet?_mapAppend_eq (la : AdjMap) (u : Node) (e : Vecino) :
    dictGet? (la.map (fun p => if p.1 == u then (p.1, p.2 ++ [e]) else p)) u =
      (dictGet? la u).map (fun l => l ++ [e]) := by
  induction la with
  | nil => rfl
  | cons p rest ih =>
    by_cases h : p.1 = u
    · simp [dictGet?, h]
    · simpa [dictGet?, h] using ih

theorem dictGet?_mapAppend_ne (la : AdjMap) (u : Node) (e : Vecino)
    (w : Node) (hw : w ≠ u) :
    dictGet? (la.map (fun p => if p.1 == u then (p.1, p.2 ++ [e]) else p)) w =
      dictGet? la w := by
  induction la with
  | nil => rfl
  | cons p rest ih =>
    by_cases h : p.1 = u
    · have hpw : ¬ p.1 = w := fun hc => hw (hc ▸ h ▸ rfl)
      have huw : ¬ u = w := fun hc => hw hc.symm
      simpa [dictGet?, h, hpw, huw] using ih
    · by_cases h2 : p.1 = w
      · have hwu : ¬ w = u := fun hc => h (h2.symm ▸ hc)
        simp [dictGet?, h, h2, hwu]
      · simpa [dictGet?, h, h2] using ih

theorem appendEdge?_some {la la' : AdjMap} {u : Node} {e : Vecino}
    (h : appendEdge? la u e = some la') :
    la'.map (fun p => p.1) = la.map (fun p => p.1) ∧
    u ∈ la.map (fun p => p.1) ∧
    dictGet? la' u = (dictGet? la u).map (fun l => l ++ [e]) ∧
    ∀ w, w ≠ u → dictGet? la' w = dictGet? la w := by
  unfold appendEdge? at h
  by_cases hany : la.any (fun p => p.1 == u) = true
  · rw [if_pos hany] at h
    have hla' : la' = la.map (fun p => if p.1 == u then (p.1, p.2 ++ [e]) else p) :=
      (Option.some_injective _ h).symm
    subst hla'
    refine ⟨?_, (any_key_iff la u).mp hany, dictGet?_mapAppend_eq la u e,
      fun w hw => dictGet?_mapAppend_ne la u e w hw⟩
    rw [List.map_map]
    apply List.map_congr_left
    intro p _
    by_cases hp : p.1 = u <;> simp [hp]
  · rw [if_neg hany] at h
    exact absurd h (by simp)

theorem appendEdge?_isSome {la : AdjMap} {u : Node} (e : Vecino)
    (h : u ∈ la.map (fun p => p.1)) :
    ∃ la', appendEdge? la u e = some la' := by
  unfold appendEdge?
  rw [if_pos ((any_key_iff la u).mpr h)]
  exact ⟨_, rfl⟩

theorem appendEdge?_mono {la la' : AdjMap} {u : Node} {e : Vecino}
    (h : appendEdge? la u e = some la') (n : Node) (x : Vecino)
    (hx : x ∈ lookupAdjD la n) : x ∈ lookupAdjD la' n := by
  rcases appendEdge?_some h with ⟨-, -, heq, hne⟩
  unfold lookupAdjD lookupAdj? at hx ⊢
  by_cases hn : n = u
  · subst hn
    rw [heq]
    cases hlk : dictGet? la n with
    | none => rw [hlk] at hx; exact absurd hx (by simp)
    | some l =>
      rw [hlk] at hx
      simp only [Option.getD_some] at hx
      simp only [Option.map_some', Option.getD_some]
      exact List.mem_append_left _ hx
  · rw [hne n hn]
    exact hx

theorem appendEdge?_src {la la' : AdjMap} {u : Node} {e : Vecino}
    (h : appendEdge? la u e = some la') (n : Node) (x : Vecino)
    (hx : x ∈ lookupAdjD la' n) : x ∈ lookupAdjD la n ∨ x = e := by
  rcases appendEdge?_some h with ⟨-, -, heq, hne⟩
  unfold lookupAdjD lookupAdj? at hx ⊢
  by_cases hn : n = u
  · subst hn
    rw [heq] at hx
    cases hlk : dictGet? la n with
    | none => rw [hlk] at hx; exact absurd hx (by simp)
    | some l =>
      rw [hlk] at hx
      simp only [Option.map_some', Option.getD_some] at hx
      rcases List.mem_append.mp hx with hl | hr
      · left
        simpa using hl
      · right
        simpa using hr
  · left
    rw [hne n hn] at hx
    exact hx

theorem appendEdge?_mem_self {la la' : AdjMap} {u : Node} {e : Vecino}
    (h : appendEdge? la u e = some la') : e ∈ lookupAdjD la' u := by
  rcases appendEdge?_some h with ⟨-, hu, heq, -⟩
  unfold lookupAdjD lookupAdj?
  rw [heq]
  cases hlk : dictGet? la u with
  | none =>
    have hs := (dictGet?_isSome la u).mpr hu
    rw [hlk] at hs
    exact absurd hs (by simp)
  | some l => simp

theorem procesaArista_some {la la' : AdjMap} {e : RawEdge}
    (h : procesaArista la e = some la') :
    la'.map (fun p => p.1) = la.map (fun p => p.1) ∧
    e.u ∈ la.map (fun p => p.1) ∧
    (e.v, pesoArista e, tiempoArista e) ∈ lookupAdjD la' e.u ∧
    (esDobleSentido e.oneway = true →
      (e.u, pesoArista e, tiempoArista e) ∈ lookupAdjD la' e.v) ∧
    (esDobleSentido e.oneway = false → e.u ≠ e.v →
      dictGet? la' e.v = dictGet? la e.v) ∧
    (∀ n x, x ∈ lookupAdjD la n → x ∈ lookupAdjD la' n) ∧
    (∀ n x, x ∈ lookupAdjD la' n →
      x ∈ lookupAdjD la n ∨ x = (e.v, pesoArista e, tiempoArista e) ∨
        x = (e.u, pesoArista e, tiempoArista e)) := by
  unfold procesaArista at h
  cases happ : appendEdge? la e.u (e.v, pesoArista e, tiempoArista e) with
  | none => rw [happ] at h; exact absurd h (by simp)
  | some la1 =>
    rw [happ] at h
    have h2 : (if esDobleSentido e.oneway = true then
        appendEdge? la1 e.v (e.u, pesoArista e, tiempoArista e)
      else pure la1) = some la' := h
    clear h
    rcases appendEdge?_some happ with ⟨hkeys1, hu1, -, -⟩
    by_cases hd : esDobleSentido e.oneway = true
    · rw [if_pos hd] at h2
      rcases appendEdge?_some h2 with ⟨hkeys2, -, -, hne2⟩
      refine ⟨hkeys2.trans hkeys1, hu1, ?_, ?_, ?_, ?_, ?_⟩
      · by_cases hvu : e.v = e.u
        · have hfwd := appendEdge?_mem_self happ
          exact appendEdge?_mono h2 e.u _ hfwd
        · have hfwd := appendEdge?_mem_self happ
          unfold lookupAdjD lookupAdj? at hfwd ⊢
          rw [hne2 e.u (fun hc => hvu hc.symm)]
          exact hfwd
      · intro _
        exact appendEdge?_mem_self h2
      · intro hfalse
        rw [hd] at hfalse
        exact absurd hfalse (by simp)
      · intro n x hx
        exact appendEdge?_mono h2 n x (appendEdge?_mono happ n x hx)
      · intro n x hx
        rcases appendEdge?_src h2 n x hx with hx1 | hrev
        · rcases appendEdge?_src happ n x hx1 with hx0 | hfwd
          · exact Or.inl hx0
          · exact Or.inr (Or.inl hfwd)
        · exact Or.inr (Or.inr hrev)
    · rw [if_neg hd] at h2
      have hla' : la' = la1 := by simpa using h2.symm
      subst hla'
      rcases appendEdge?_some happ with ⟨-, -, -, hne1⟩
      refine ⟨hkeys1, hu1, appendEdge?_mem_self happ, ?_, ?_, ?_, ?_⟩
      · intro htrue
        exact absurd htrue hd
      · intro _ hne
        exact hne1 e.v (fun hc => hne hc.symm)
      · intro n x hx
        exact appendEdge?_mono happ n x hx
      · intro n x hx
        rcases appendEdge?_src happ n x hx with hx0 | hfwd
        · exact Or.inl hx0
        · exact Or.inr (Or.inl hfwd)

theorem foldEdges_keys_mono :
    ∀ (edges : List RawEdge) (la laF : AdjMap),
      edges.foldlM procesaArista la = some laF →
      laF.map (fun p => p.1) = la.map (fun p => p.1) ∧
      (∀ n x, x ∈ lookupAdjD la n → x ∈ lookupAdjD laF n) := by
  intro edges
  induction edges with
  | nil =>
    intro la laF h
    have : la = laF := by simpa using h
    subst this
    exact ⟨rfl, fun n x hx => hx⟩
  | cons e rest ih =>
    intro la laF h
    rw [List.foldlM_cons] at h
    cases hp : procesaArista la e with
    | none => rw [hp] at h; exact absurd h (by simp)
    | some la1 =>
      rw [hp] at h
      have h2 : rest.foldlM procesaArista la1 = some laF := h
      rcases procesaArista_some hp with ⟨hkeys, -, -, -, -, hmono, -⟩
      rcases ih la1 laF h2 with ⟨hkeys2, hmono2⟩
      exact ⟨hkeys2.trans hkeys, fun n x hx => hmono2 n x (hmono n x hx)⟩

theorem foldEdges_mem :
    ∀ (edges : List RawEdge) (la laF : AdjMap),
      edges.foldlM procesaArista la = some laF →
      ∀ e ∈ edges, ∃ la1 la2, procesaArista la1 e = some la2 ∧
        la1.map (fun p => p.1) = la.map (fun p => p.1) ∧
        (∀ n x, x ∈ lookupAdjD la2 n → x ∈ lookupAdjD laF n) := by
  intro edges
  induction edges with
  | nil => intro la laF h e he; simp at he
  | cons e' rest ih =>
    intro la laF h e he
    rw [List.foldlM_cons] at h
    cases hp : procesaArista la e' with
    | none => rw [hp] at h; exact absurd h (by simp)
    | some la1 =>
      rw [hp] at h
      have h2 : rest.foldlM procesaArista la1 = some laF := h
      rcases List.mem_cons.mp he with he' | hrest
      · subst he'
        rcases foldEdges_keys_mono rest la1 laF h2 with ⟨-, hmono⟩
        exact ⟨la, la1, hp, rfl, hmono⟩
      · rcases ih la1 laF h2 e hrest with ⟨lb1, lb2, hb, hbkeys, hbmono⟩
        rcases procesaArista_some hp with ⟨hkeys1, -, -, -, -, -, -⟩
        exact ⟨lb1, lb2, hb, hbkeys.trans hkeys1, hbmono⟩

theorem esDobleSentido_iff (o : PyVal) :
    esDobleSentido o = true ↔
      (o = PyVal.none ∨ o = PyVal.bool false ∨ o = PyVal.int 0 ∨
        o = PyVal.str "false" ∨ o = PyVal.str "False") := by
  cases o with
  | none => simp [esDobleSentido, pyEq]
  | bool b => cases b <;> simp [esDobleSentido, pyEq]
  | int n => simp [esDobleSentido, pyEq]
  | str s => simp [esDobleSentido, pyEq]

theorem construirAdy_some {rns : List RawNode} {res : List RawEdge}
    {ni : NodeMap} {la : AdjMap}
    (h : construirAdy rns res = some (ni, la)) :
    ni = (buildNodes rns).1 ∧
    res.foldlM procesaArista (buildNodes rns).2 = some la := by
  unfold construirAdy at h
  rcases hb : buildNodes rns with ⟨ni0, la0⟩
  rw [hb] at h
  have h' : ((res.foldlM procesaArista la0).bind fun l =>
      some (ni0, l)) = some (ni, la) := h
  clear h
  cases hf : res.foldlM procesaArista la0 with
  | none =>
    rw [hf] at h'
    exact absurd h' (by simp)
  | some laF =>
    rw [hf] at h'
    have h2 : (ni0, laF) = (ni, la) := by simpa using h'
    have hni : ni0 = ni := congrArg Prod.fst h2
    have hla : laF = la := congrArg Prod.snd h2
    subst hni
    subst hla
    exact ⟨rfl, rfl⟩

/-- C1 fails as stated: the one-way value `""` (the empty string) is a
falsy Python value, so by the claim the edge should get a reverse entry,
but `"" in (False, 'false', 'False', 0, None)` is false and the builder
leaves the destination's adjacency empty. -/
theorem reverseInsertion_counterexample :
    specBidireccional (PyVal.str "") = true ∧
    esDobleSentido (PyVal.str "") = false ∧
    construirAdy [(1, Option.none, Option.none), (2, Option.none, Option.none)]
        [⟨1, 2, some 500, PyVal.str ""⟩] =
      some ([(1, 0, 0), (2, 0, 0)], [(1, [(2, 500, 1)]), (2, [])]) := by
  refine ⟨rfl, rfl, ?_⟩
  have hm : metros_a_minutos 500 = 1 := by
    norm_num [metros_a_minutos, minutosSinRedondear, velocidad_kmh, pyRound2,
      roundHalfEven, Int.fract]
  simp [construirAdy, buildNodes, pasoNodo, dictSet, List.foldlM, procesaArista,
    appendEdge?, pesoArista, tiempoArista, esDobleSentido, pyEq, hm]

/-- C1 amended: the forward tuple is always appended; the reverse tuple
`(origin, length, time)` is appended if and only if the one-way attribute
is `None` (absent), `False`, a value Python-equal to `0`, or one of the
strings `'false'` and `'False'` — not "any falsy representation" (`""` is
falsy but keeps the edge one-way, while `'false'`/`'False'` are truthy
but make it two-way).  For every edge passing that test, both directions
are present in the final adjacency with identical length and time. -/
theorem reverseInsertion_amended (rawNodes : List RawNode)
    (rawEdges : List RawEdge) (ni : NodeMap) (la : AdjMap)
    (h : construirAdy rawNodes rawEdges = some (ni, la)) (e : RawEdge)
    (he : e ∈ rawEdges) :
    (e.v, pesoArista e, tiempoArista e) ∈ lookupAdjD la e.u ∧
    (esDobleSentido e.oneway = true →
      (e.u, pesoArista e, tiempoArista e) ∈ lookupAdjD la e.v) ∧
    (esDobleSentido e.oneway = true ↔
      (e.oneway = PyVal.none ∨ e.oneway = PyVal.bool false ∨
        e.oneway = PyVal.int 0 ∨ e.oneway = PyVal.str "false" ∨
        e.oneway = PyVal.str "False")) ∧
    ∀ la0 la1, procesaArista la0 e = some la1 →
      esDobleSentido e.oneway = false → e.u ≠ e.v →
      lookupAdj? la1 e.v = lookupAdj? la0 e.v := by
  rcases construirAdy_some h with ⟨-, hf⟩
  rcases foldEdges_mem rawEdges _ la hf e he with ⟨la1, la2, hp, -, hmono⟩
  rcases procesaArista_some hp with ⟨-, -, hfwd, hrev, -, -, -⟩
  refine ⟨hmono _ _ hfwd, fun hd => hmono _ _ (hrev hd),
    esDobleSentido_iff e.oneway, ?_⟩
  intro la0 la1' hp' hfalse hne
  rcases procesaArista_some hp' with ⟨-, -, -, -, hunch, -, -⟩
  exact hunch hfalse hne

theorem reverseInsertion_amended_witness :
    (construirAdy [(1, Option.none, Option.none), (2, Option.none, Option.none)]
        [⟨1, 2, some 500, PyVal.none⟩] =
      some ([(1, 0, 0), (2, 0, 0)], [(1, [(2, 500, 1)]), (2, [(1, 500, 1)])])) ∧
    ((⟨1, 2, some 500, PyVal.none⟩ : RawEdge) ∈
      [(⟨1, 2, some 500, PyVal.none⟩ : RawEdge)]) ∧
    ((2, pesoArista ⟨1, 2, some 500, PyVal.none⟩,
        tiempoArista ⟨1, 2, some 500, PyVal.none⟩) ∈
      lookupAdjD [(1, [(2, 500, 1)]), (2, [(1, 500, 1)])] 1 ∧
    (esDobleSentido (RawEdge.oneway ⟨1, 2, some 500, PyVal.none⟩) = true →
      (1, pesoArista ⟨1, 2, some 500, PyVal.none⟩,
          tiempoArista ⟨1, 2, some 500, PyVal.none⟩) ∈
        lookupAdjD [(1, [(2, 500, 1)]), (2, [(1, 500, 1)])] 2) ∧
    (esDobleSentido (RawEdge.oneway ⟨1, 2, some 500, PyVal.none⟩) = true ↔
      (RawEdge.oneway ⟨1, 2, some 500, PyVal.none⟩ = PyVal.none ∨
        RawEdge.oneway ⟨1, 2, some 500, PyVal.none⟩ = PyVal.bool false ∨
        RawEdge.oneway ⟨1, 2, some 500, PyVal.none⟩ = PyVal.int 0 ∨
        RawEdge.oneway ⟨1, 2, some 500, PyVal.none⟩ = PyVal.str "false" ∨
        RawEdge.oneway ⟨1, 2, some 500, PyVal.none⟩ = PyVal.str "False")) ∧
    ∀ la0 la1, procesaArista la0 ⟨1, 2, some 500, PyVal.none⟩ = some la1 →
      esDobleSentido (RawEdge.oneway ⟨1, 2, some 500, PyVal.none⟩) = false →
      RawEdge.u ⟨1, 2, some 500, PyVal.none⟩ ≠
        RawEdge.v ⟨1, 2, some 500, PyVal.none⟩ →
      lookupAdj? la1 (RawEdge.v ⟨1, 2, some 500, PyVal.none⟩) =
        lookupAdj? la0 (RawEdge.v ⟨1, 2, some 500, PyVal.none⟩)) := by
  have hbuild : construirAdy
      [(1, Option.none, Option.none), (2, Option.none, Option.none)]
        [⟨1, 2, some 500, PyVal.none⟩] =
      some ([(1, 0, 0), (2, 0, 0)], [(1, [(2, 500, 1)]), (2, [(1, 500, 1)])]) := by
    have hm : metros_a_minutos 500 = 1 := by
      norm_num [metros_a_minutos, minutosSinRedondear, velocidad_kmh, pyRound2,
        roundHalfEven, Int.fract]
    simp [construirAdy, buildNodes, pasoNodo, dictSet, List.foldlM, procesaArista,
      appendEdge?, pesoArista, tiempoArista, esDobleSentido, pyEq, hm]
  exact ⟨hbuild, List.mem_singleton.mpr rfl,
    reverseInsertion_amended _ _ _ _ hbuild _ (List.mem_singleton.mpr rfl)⟩

/-- C9: a raw edge whose length attribute is missing gets the fixed
default of 100.0 metres, and its time is computed from that default
(`metros_a_minutos 100 = 0.2` minutes at 30 km/h): the inserted forward
entry carries the strictly positive length 100 and a strictly positive
time, not a zero-cost edge, and the build succeeds. -/
theorem lengthDefault (rawNodes : List RawNode) (rawEdges : List RawEdge)
    (ni : NodeMap) (la : AdjMap)
    (h : construirAdy rawNodes rawEdges = some (ni, la)) (e : RawEdge)
    (he : e ∈ rawEdges) (hlen : e.len = Option.none) :
    (e.v, 100, metros_a_minutos 100) ∈ lookupAdjD la e.u ∧
    metros_a_minutos 100 = 1 / 5 ∧
    (0 : ℚ) < 100 ∧ (0 : ℚ) < metros_a_minutos 100 := by
  rcases construirAdy_some h with ⟨-, hf⟩
  rcases foldEdges_mem rawEdges _ la hf e he with ⟨la1, la2, hp, -, hmono⟩
  rcases procesaArista_some hp with ⟨-, -, hfwd, -, -, -, -⟩
  have hw : pesoArista e = 100 := by simp [pesoArista, hlen]
  have ht : tiempoArista e = metros_a_minutos 100 := by
    rw [tiempoArista, hw]
  have hm : metros_a_minutos 100 = 1 / 5 := by
    norm_num [metros_a_minutos, minutosSinRedondear, velocidad_kmh, pyRound2,
      roundHalfEven, Int.fract]
  refine ⟨?_, hm, by norm_num, by rw [hm]; norm_num⟩
  have hmem := hmono _ _ hfwd
  rw [hw, ht] at hmem
  exact hmem

theorem lengthDefault_witness :
    (construirAdy [(1, Option.none, Option.none), (2, Option.none, Option.none)]
        [⟨1, 2, Option.none, PyVal.bool true⟩] =
      some ([(1, 0, 0), (2, 0, 0)], [(1, [(2, 100, 1/5)]), (2, [])])) ∧
    ((⟨1, 2, Option.none, PyVal.bool true⟩ : RawEdge) ∈
      [(⟨1, 2, Option.none, PyVal.bool true⟩ : RawEdge)]) ∧
    (RawEdge.len ⟨1, 2, Option.none, PyVal.bool true⟩ = Option.none) ∧
    ((2, 100, metros_a_minutos 100) ∈
        lookupAdjD [(1, [(2, 100, 1/5)]), (2, [])] 1 ∧
      metros_a_minutos 100 = 1 / 5 ∧
      (0 : ℚ) < 100 ∧ (0 : ℚ) < metros_a_minutos 100) := by
  have hm : metros_a_minutos 100 = 1 / 5 := by
    norm_num [metros_a_minutos, minutosSinRedondear, velocidad_kmh, pyRound2,
      roundHalfEven, Int.fract]
  have hbuild : construirAdy
      [(1, Option.none, Option.none), (2, Option.none, Option.none)]
        [⟨1, 2, Option.none, PyVal.bool true⟩] =
      some ([(1, 0, 0), (2, 0, 0)], [(1, [(2, 100, 1/5)]), (2, [])]) := by
    simp [construirAdy, buildNodes, pasoNodo, dictSet, List.foldlM, procesaArista,
      appendEdge?, pesoArista, tiempoArista, esDobleSentido, pyEq, hm]
  exact ⟨hbuild, List.mem_singleton.mpr rfl, rfl,
    lengthDefault _ _ _ _ hbuild _ (List.mem_singleton.mpr rfl) rfl⟩

/-! ### Principal-component selection lemmas -/

theorem ordenaDesc_head (comps : List (Finset Node)) (h : comps ≠ []) :
    (ordenaDesc (comps.map (fun c => (c.card, c)))).head? =
      some ((specSelectComponent comps).card, specSelectComponent comps) := by
  induction comps with
  | nil => exact absurd rfl h
  | cons c cs ih =>
    by_cases hcs : cs = []
    · subst hcs
      show ([(c.card, c)]).head? = _
      have hsel : specSelectComponent [c] = c := by
        show (if (specSelectComponent []).card ≤ c.card then c
          else specSelectComponent []) = c
        rw [if_pos]
        show (∅ : Finset Node).card ≤ c.card
        simp
      rw [hsel]
      rfl
    · have ihh := ih hcs
      show (insertaDesc (c.card, c)
        (ordenaDesc (cs.map (fun c => (c.card, c))))).head? = _
      cases hl : ordenaDesc (cs.map (fun c => (c.card, c))) with
      | nil => rw [hl] at ihh; exact absurd ihh (by simp)
      | cons y ys =>
        rw [hl] at ihh
        have hy : y = ((specSelectComponent cs).card, specSelectComponent cs) := by
          simpa using ihh
        have hsel : specSelectComponent (c :: cs) =
            if (specSelectComponent cs).card ≤ c.card then c
            else specSelectComponent cs := rfl
        show (if y.1 ≤ c.card then (c.card, c) :: y :: ys
          else y :: insertaDesc (c.card, c) ys).head? = _
        by_cases hle : (specSelectComponent cs).card ≤ c.card
        · rw [if_pos (by rw [hy]; exact hle)]
          rw [hsel, if_pos hle]
          rfl
        · rw [if_neg (by rw [hy]; exact hle)]
          rw [hsel, if_neg hle]
          simp [hy]

theorem componente_principal_eq_spec (comps : List (Finset Node))
    (h : comps ≠ []) :
    componente_principal comps = specSelectComponent comps := by
  have hh := ordenaDesc_head comps h
  unfold componente_principal
  cases hl : ordenaDesc (comps.map fun c => (c.card, c)) with
  | nil => rw [hl] at hh; exact absurd hh (by simp)
  | cons y ys =>
    rw [hl] at hh
    have hy : y = ((specSelectComponent comps).card, specSelectComponent comps) := by
      simpa using hh
    rw [hy]

theorem specSelectComponent_mem :
    ∀ (comps : List (Finset Node)), comps ≠ [] →
      specSelectComponent comps ∈ comps := by
  intro comps
  induction comps with
  | nil => exact fun h => absurd rfl h
  | cons c cs ih =>
    intro _
    show (if (specSelectComponent cs).card ≤ c.card then c
      else specSelectComponent cs) ∈ c :: cs
    by_cases hle : (specSelectComponent cs).card ≤ c.card
    · rw [if_pos hle]
      exact List.mem_cons_self _ _
    · rw [if_neg hle]
      have hne : cs ≠ [] := by
        intro hc
        subst hc
        exact hle (by show (∅ : Finset Node).card ≤ c.card; simp)
      exact List.mem_cons_of_mem _ (ih hne)

theorem specSelectComponent_max :
    ∀ (comps : List (Finset Node)) (d : Finset Node), d ∈ comps →
      d.card ≤ (specSelectComponent comps).card := by
  intro comps
  induction comps with
  | nil => intro d hd; simp at hd
  | cons c cs ih =>
    intro d hd
    show d.card ≤ (if (specSelectComponent cs).card ≤ c.card then c
      else specSelectComponent cs).card
    rcases List.mem_cons.mp hd with hdc | hdcs
    · subst hdc
      by_cases hle : (specSelectComponent cs).card ≤ d.card
      · rw [if_pos hle]
      · rw [if_neg hle]
        omega
    · have hle2 := ih d hdcs
      by_cases hle : (specSelectComponent cs).card ≤ c.card
      · rw [if_pos hle]
        omega
      · rw [if_neg hle]
        exact hle2

/-- C3: for a non-empty component list, `componente_principal` (the head
of the stable size-descending sort) is a component of maximum
cardinality, and equals the spec's selection rule "maximum cardinality,
ties broken by first encountered in the discovery enumeration"
(`specSelectComponent`). -/
theorem principalSelection (comps : List (Finset Node)) (h : comps ≠ []) :
    componente_principal comps ∈ comps ∧
    (∀ c ∈ comps, c.card ≤ (componente_principal comps).card) ∧
    componente_principal comps = specSelectComponent comps := by
  have he := componente_principal_eq_spec comps h
  refine ⟨he ▸ specSelectComponent_mem comps h, ?_, he⟩
  intro c hc
  rw [he]
  exact specSelectComponent_max comps c hc

theorem principalSelection_witness :
    ([{1}, {2, 3}, {4, 5}] : List (Finset Node)) ≠ [] ∧
    (componente_principal [{1}, {2, 3}, {4, 5}] ∈
        ([{1}, {2, 3}, {4, 5}] : List (Finset Node)) ∧
      (∀ c ∈ ([{1}, {2, 3}, {4, 5}] : List (Finset Node)),
        c.card ≤ (componente_principal [{1}, {2, 3}, {4, 5}]).card) ∧
      componente_principal [{1}, {2, 3}, {4, 5}] =
        specSelectComponent [{1}, {2, 3}, {4, 5}]) :=
  ⟨by decide, principalSelection _ (by decide)⟩

/-! ### BFS lemmas -/

theorem procesaVecinos_spec :
    ∀ (vecinos cola : List Node) (vis : Finset Node),
      ∃ l : List Node,
        procesaVecinos vecinos cola vis = (cola ++ l, vis ∪ l.toFinset) ∧
        l.Nodup ∧
        (∀ x ∈ l, x ∈ vecinos ∧ x ∉ vis) ∧
        (∀ v ∈ vecinos, v ∈ vis ∨ v ∈ l) := by
  intro vecinos
  induction vecinos with
  | nil =>
    intro cola vis
    exact ⟨[], by simp [procesaVecinos], List.nodup_nil, by simp, by simp⟩
  | cons v rest ih =>
    intro cola vis
    have hred : procesaVecinos (v :: rest) cola vis =
        if v ∈ vis then procesaVecinos rest cola vis
        else procesaVecinos rest (cola ++ [v]) (insert v vis) := rfl
    by_cases hv : v ∈ vis
    · rcases ih cola vis with ⟨l, heq, hnd, hmem, hcov⟩
      refine ⟨l, ?_, hnd, ?_, ?_⟩
      · rw [hred, if_pos hv, heq]
      · intro x hx
        exact ⟨List.mem_cons_of_mem _ (hmem x hx).1, (hmem x hx).2⟩
      · intro w hw
        rcases List.mem_cons.mp hw with hwv | hwr
        · exact Or.inl (hwv ▸ hv)
        · exact hcov w hwr
    · rcases ih (cola ++ [v]) (insert v vis) with ⟨l, heq, hnd, hmem, hcov⟩
      refine ⟨v :: l, ?_, ?_, ?_, ?_⟩
      · rw [hred, if_neg hv, heq]
        have h1 : cola ++ [v] ++ l = cola ++ v :: l := by simp
        have h2 : insert v vis ∪ l.toFinset = vis ∪ (v :: l).toFinset := by
          rw [List.toFinset_cons, Finset.insert_union, Finset.union_insert]
        rw [h1, h2]
      · refine List.nodup_cons.mpr ⟨?_, hnd⟩
        intro hvl
        exact (hmem v hvl).2 (Finset.mem_insert_self v vis)
      · intro x hx
        rcases List.mem_cons.mp hx with hxv | hxl
        · exact ⟨hxv ▸ List.mem_cons_self v rest, hxv ▸ hv⟩
        · refine ⟨List.mem_cons_of_mem _ (hmem x hxl).1, ?_⟩
          intro hxvis
          exact (hmem x hxl).2 (Finset.mem_insert_of_mem hxvis)
      · intro w hw
        rcases List.mem_cons.mp hw with hwv | hwr
        · exact Or.inr (hwv ▸ List.mem_cons_self v l)
        · rcases hcov w hwr with hv2 | hl2
          · rcases Finset.mem_insert.mp hv2 with hwv2 | hwvis
            · exact Or.inr (hwv2 ▸ List.mem_cons_self v l)
            · exact Or.inl hwvis
          · exact Or.inr (List.mem_cons_of_mem _ hl2)

theorem mem_allNodes_of_entry {la : AdjMap} {p : Node × List Vecino}
    (hp : p ∈ la) {v : Node} (hv : v ∈ p.2.map (fun w => w.1)) :
    v ∈ allNodes la := by
  unfold allNodes
  apply Finset.mem_union_right
  induction la with
  | nil => simp at hp
  | cons q rest ih =>
    rcases List.mem_cons.mp hp with hq | hrest
    · subst hq
      simp only [List.foldr_cons]
      exact Finset.mem_union_left _ (List.mem_toFinset.mpr hv)
    · simp only [List.foldr_cons]
      exact Finset.mem_union_right _ (ih hrest)

theorem vecinosIds_subset_allNodes (la : AdjMap) (n : Node) :
    ∀ v ∈ vecinosIds la n, v ∈ allNodes la := by
  intro v hv
  unfold vecinosIds lookupAdjD lookupAdj? at hv
  cases hlk : dictGet? la n with
  | none => rw [hlk] at hv; simp at hv
  | some l =>
    rw [hlk] at hv
    simp only [Option.getD_some] at hv
    exact mem_allNodes_of_entry (dictGet?_mem hlk) hv

theorem vecinosIds_ne_nil_key {la : AdjMap} {n : Node}
    (h : vecinosIds la n ≠ []) : n ∈ adjKeys la := by
  unfold vecinosIds lookupAdjD lookupAdj? at h
  unfold adjKeys
  rw [← dictGet?_isSome]
  cases hlk : dictGet? la n with
  | none => rw [hlk] at h; simp at h
  | some l => simp

theorem bfsLoop_mono (la : AdjMap) :
    ∀ (fuel : Nat) (cola : List Node) (vis : Finset Node),
      vis ⊆ bfsLoop la fuel cola vis := by
  intro fuel
  induction fuel with
  | zero => intro cola vis; exact Finset.Subset.refl _
  | succ f ih =>
    intro cola vis
    cases cola with
    | nil => exact Finset.Subset.refl _
    | cons nodo rest =>
      rcases procesaVecinos_spec (vecinosIds la nodo) rest vis with
        ⟨l, heq, -, -, -⟩
      have hstep : bfsLoop la (f + 1) (nodo :: rest) vis =
          bfsLoop la f (rest ++ l) (vis ∪ l.toFinset) := by
        show bfsLoop la f (procesaVecinos (vecinosIds la nodo) rest vis).1
            (procesaVecinos (vecinosIds la nodo) rest vis).2 = _
        rw [heq]
      rw [hstep]
      exact Finset.Subset.trans Finset.subset_union_left (ih _ _)

theorem bfsLoop_sound (la : AdjMap) (inicio : Node) :
    ∀ (fuel : Nat) (cola : List Node) (vis : Finset Node),
      (∀ c ∈ cola, Reach la inicio c) →
      (∀ v ∈ vis, Reach la inicio v) →
      ∀ x ∈ bfsLoop la fuel cola vis, Reach la inicio x := by
  intro fuel
  induction fuel with
  | zero => intro cola vis _ hv x hx; exact hv x hx
  | succ f ih =>
    intro cola vis hc hv
    cases cola with
    | nil => exact hv
    | cons nodo rest =>
      rcases procesaVecinos_spec (vecinosIds la nodo) rest vis with
        ⟨l, heq, -, hmem, -⟩
      have hstep : bfsLoop la (f + 1) (nodo :: rest) vis =
          bfsLoop la f (rest ++ l) (vis ∪ l.toFinset) := by
        show bfsLoop la f (procesaVecinos (vecinosIds la nodo) rest vis).1
            (procesaVecinos (vecinosIds la nodo) rest vis).2 = _
        rw [heq]
      rw [hstep]
      have hnodo : Reach la inicio nodo := hc nodo (List.mem_cons_self _ _)
      apply ih
      · intro c hcm
        rcases List.mem_append.mp hcm with hr | hl
        · exact hc c (List.mem_cons_of_mem _ hr)
        · exact Relation.ReflTransGen.tail hnodo (hmem c hl).1
      · intro v hvm
        rcases Finset.mem_union.mp hvm with h1 | h2
        · exact hv v h1
        · exact Relation.ReflTransGen.tail hnodo
            (hmem v (List.mem_toFinset.mp h2)).1

theorem bfsLoop_cerrado (la : AdjMap) :
    ∀ (fuel : Nat) (cola : List Node) (vis : Finset Node),
      2 * (allNodes la \ vis).card + cola.length < fuel →
      (∀ c ∈ cola, c ∈ vis) →
      (∀ x ∈ vis, x ∈ cola ∨ ∀ y ∈ vecinosIds la x, y ∈ vis) →
      ∀ x ∈ bfsLoop la fuel cola vis, ∀ y ∈ vecinosIds la x,
        y ∈ bfsLoop la fuel cola vis := by
  intro fuel
  induction fuel with
  | zero => intro cola vis hm; exact absurd hm (by omega)
  | succ f ih =>
    intro cola vis hm hq hinv
    cases cola with
    | nil =>
      intro x hx y hy
      rcases hinv x hx with hc | hcl
      · simp at hc
      · exact hcl y hy
    | cons nodo rest =>
      rcases procesaVecinos_spec (vecinosIds la nodo) rest vis with
        ⟨l, heq, hnd, hmem, hcov⟩
      have hstep : bfsLoop la (f + 1) (nodo :: rest) vis =
          bfsLoop la f (rest ++ l) (vis ∪ l.toFinset) := by
        show bfsLoop la f (procesaVecinos (vecinosIds la nodo) rest vis).1
            (procesaVecinos (vecinosIds la nodo) rest vis).2 = _
        rw [heq]
      rw [hstep]
      have hsub : l.toFinset ⊆ allNodes la \ vis := by
        intro t ht
        rcases hmem t (List.mem_toFinset.mp ht) with ⟨htv, htn⟩
        exact Finset.mem_sdiff.mpr
          ⟨vecinosIds_subset_allNodes la nodo t htv, htn⟩
      apply ih
      · have hdiff : allNodes la \ (vis ∪ l.toFinset) =
            (allNodes la \ vis) \ l.toFinset := by
          ext a
          simp only [Finset.mem_sdiff, Finset.mem_union]
          tauto
        have hcard : ((allNodes la \ vis) \ l.toFinset).card =
            (allNodes la \ vis).card - l.toFinset.card :=
          Finset.card_sdiff hsub
        have hle : l.toFinset.card ≤ (allNodes la \ vis).card :=
          Finset.card_le_card hsub
        have hlen : l.toFinset.card = l.length :=
          List.toFinset_card_of_nodup hnd
        have hm2 : 2 * (allNodes la \ vis).card + (rest.length + 1) < f + 1 := by
          simpa [List.length_cons] using hm
        rw [hdiff, hcard, hlen, List.length_append]
        omega
      · intro c hcm
        rcases List.mem_append.mp hcm with hr | hl
        · exact Finset.mem_union_left _ (hq c (List.mem_cons_of_mem _ hr))
        · exact Finset.mem_union_right _ (List.mem_toFinset.mpr hl)
      · intro x hx
        rcases Finset.mem_union.mp hx with hxv | hxl
        · rcases hinv x hxv with hxc | hxcl
          · rcases List.mem_cons.mp hxc with hxn | hxr
            · subst hxn
              right
              intro y hy
              rcases hcov y hy with hyv | hyl
              · exact Finset.mem_union_left _ hyv
              · exact Finset.mem_union_right _ (List.mem_toFinset.mpr hyl)
            · exact Or.inl (List.mem_append_left _ hxr)
          · right
            intro y hy
            exact Finset.mem_union_left _ (hxcl y hy)
        · exact Or.inl (List.mem_append_right _ (List.mem_toFinset.mp hxl))

theorem BFS_componente_start (la : AdjMap) (inicio : Node) :
    inicio ∈ BFS_componente la inicio :=
  bfsLoop_mono la _ _ _ (Finset.mem_singleton_self inicio)

theorem BFS_componente_cerrado (la : AdjMap) (inicio : Node) :
    ∀ x ∈ BFS_componente la inicio, ∀ y ∈ vecinosIds la x,
      y ∈ BFS_componente la inicio := by
  apply bfsLoop_cerrado
  · have hle : (allNodes la \ {inicio}).card ≤ (allNodes la).card :=
      Finset.card_le_card Finset.sdiff_subset
    simp only [List.length_cons, List.length_nil]
    omega
  · intro c hc
    rcases List.mem_cons.mp hc with h1 | h2
    · exact h1 ▸ Finset.mem_singleton_self inicio
    · simp at h2
  · intro x hx
    left
    have hxe : x = inicio := Finset.mem_singleton.mp hx
    rw [hxe]
    exact List.mem_cons_self _ _

theorem BFS_componente_mem_iff (la : AdjMap) (inicio x : Node) :
    x ∈ BFS_componente la inicio ↔ Reach la inicio x := by
  constructor
  · intro hx
    refine bfsLoop_sound la inicio _ _ _ ?_ ?_ x hx
    · intro c hc
      rcases List.mem_cons.mp hc with h1 | h2
      · exact h1 ▸ Relation.ReflTransGen.refl
      · simp at h2
    · intro v hv
      have hve : v = inicio := Finset.mem_singleton.mp hv
      exact hve ▸ Relation.ReflTransGen.refl
  · intro hr
    induction hr with
    | refl => exact BFS_componente_start la inicio
    | tail hab hbc ih => exact BFS_componente_cerrado la inicio _ ih _ hbc

/-! ### Symmetric-adjacency lemmas -/

theorem sym_paso {la : AdjMap}
    (hsym : ∀ u ∈ adjKeys la, ∀ v ∈ vecinosIds la u, u ∈ vecinosIds la v)
    (u v : Node) (hp : Paso la u v) : Paso la v u := by
  have hu : u ∈ adjKeys la := by
    apply vecinosIds_ne_nil_key
    intro hnil
    rw [Paso, hnil] at hp
    exact absurd hp (List.not_mem_nil v)
  exact hsym u hu v hp

theorem sym_reach {la : AdjMap}
    (hsym : ∀ u ∈ adjKeys la, ∀ v ∈ vecinosIds la u, u ∈ vecinosIds la v)
    (u v : Node) (hr : Reach la u v) : Reach la v u := by
  induction hr with
  | refl => exact Relation.ReflTransGen.refl
  | tail hab hbc ih =>
    exact Relation.ReflTransGen.trans
      (Relation.ReflTransGen.single (sym_paso hsym _ _ hbc)) ih

theorem sym_closure {la : AdjMap}
    (hsym : ∀ u ∈ adjKeys la, ∀ v ∈ vecinosIds la u, u ∈ vecinosIds la v) :
    ∀ n, ∀ v ∈ vecinosIds la n, v ∈ adjKeys la := by
  intro n v hv
  have hp : n ∈ vecinosIds la v := sym_paso hsym n v hv
  apply vecinosIds_ne_nil_key
  intro hnil
  rw [hnil] at hp
  exact absurd hp (List.not_mem_nil n)

theorem reach_closed_mem {la : AdjMap} {S : Finset Node}
    (hcl : ∀ x ∈ S, ∀ y ∈ vecinosIds la x, y ∈ S) {u v : Node}
    (hr : Reach la u v) (hu : u ∈ S) : v ∈ S := by
  induction hr with
  | refl => exact hu
  | tail hab hbc ih => exact hcl _ ih _ hbc

theorem BFS_subset_keys {la : AdjMap}
    (hclo : ∀ n, ∀ v ∈ vecinosIds la n, v ∈ adjKeys la)
    {inicio : Node} (hini : inicio ∈ adjKeys la) :
    BFS_componente la inicio ⊆ adjKeysF la := by
  intro x hx
  rw [BFS_componente_mem_iff] at hx
  show x ∈ (adjKeys la).toFinset
  rw [List.mem_toFinset]
  induction hx with
  | refl => exact hini
  | tail hab hbc ih => exact hclo _ _ hbc

theorem BFS_eq_of_reach {la : AdjMap}
    (hsym : ∀ u ∈ adjKeys la, ∀ v ∈ vecinosIds la u, u ∈ vecinosIds la v)
    {s n : Node} (hr : Reach la s n) :
    BFS_componente la s = BFS_componente la n := by
  ext x
  rw [BFS_componente_mem_iff, BFS_componente_mem_iff]
  exact ⟨fun hx => Relation.ReflTransGen.trans (sym_reach hsym _ _ hr) hx,
    fun hx => Relation.ReflTransGen.trans hr hx⟩

/-! ### Component-discovery lemmas -/

theorem unionL_cons (C : Finset Node) (l : List (Finset Node)) :
    unionL (C :: l) = C ∪ unionL l := rfl

theorem mem_unionL {l : List (Finset Node)} {x : Node} (hx : x ∈ unionL l) :
    ∃ C ∈ l, x ∈ C := by
  induction l with
  | nil => simp [unionL] at hx
  | cons C rest ih =>
    rw [unionL_cons] at hx
    rcases Finset.mem_union.mp hx with h1 | h2
    · exact ⟨C, List.mem_cons_self _ _, h1⟩
    · rcases ih h2 with ⟨D, hD, hxD⟩
      exact ⟨D, List.mem_cons_of_mem _ hD, hxD⟩

theorem componentesAux_shape (la : AdjMap) :
    ∀ (resto : List Node) (visG : Finset Node) (C : Finset Node),
      C ∈ componentesAux la resto visG →
      ∃ n, n ∈ resto ∧ n ∉ visG ∧ C = BFS_componente la n := by
  intro resto
  induction resto with
  | nil => intro visG C hC; simp [componentesAux] at hC
  | cons n rest ih =>
    intro visG C hC
    have hred : componentesAux la (n :: rest) visG =
        if n ∈ visG then componentesAux la rest visG
        else BFS_componente la n ::
          componentesAux la rest (visG ∪ BFS_componente la n) := rfl
    by_cases hv : n ∈ visG
    · rw [hred, if_pos hv] at hC
      rcases ih visG C hC with ⟨m, hm1, hm2, hm3⟩
      exact ⟨m, List.mem_cons_of_mem _ hm1, hm2, hm3⟩
    · rw [hred, if_neg hv] at hC
      rcases List.mem_cons.mp hC with hCh | hCt
      · exact ⟨n, List.mem_cons_self _ _, hv, hCh⟩
      · rcases ih _ C hCt with ⟨m, hm1, hm2, hm3⟩
        refine ⟨m, List.mem_cons_of_mem _ hm1, ?_, hm3⟩
        intro hmv
        exact hm2 (Finset.mem_union_left _ hmv)

theorem componentesAux_cubre (la : AdjMap) :
    ∀ (resto : List Node) (visG : Finset Node) (n : Node), n ∈ resto →
      n ∈ visG ∨ n ∈ unionL (componentesAux la resto visG) := by
  intro resto
  induction resto with
  | nil => intro visG n hn; simp at hn
  | cons m rest ih =>
    intro visG n hn
    have hred : componentesAux la (m :: rest) visG =
        if m ∈ visG then componentesAux la rest visG
        else BFS_componente la m ::
          componentesAux la rest (visG ∪ BFS_componente la m) := rfl
    by_cases hv : m ∈ visG
    · rw [hred, if_pos hv]
      rcases List.mem_cons.mp hn with hnm | hnr
      · exact Or.inl (hnm ▸ hv)
      · exact ih visG n hnr
    · rw [hred, if_neg hv, unionL_cons]
      rcases List.mem_cons.mp hn with hnm | hnr
      · exact Or.inr (Finset.mem_union_left _
          (hnm ▸ BFS_componente_start la m))
      · rcases ih (visG ∪ BFS_componente la m) n hnr with h1 | h2
        · rcases Finset.mem_union.mp h1 with h1a | h1b
          · exact Or.inl h1a
          · exact Or.inr (Finset.mem_union_left _ h1b)
        · exact Or.inr (Finset.mem_union_right _ h2)

theorem componentesAux_subset (la : AdjMap) (K : Finset Node) :
    ∀ (resto : List Node) (visG : Finset Node),
      (∀ n ∈ resto, BFS_componente la n ⊆ K) →
      unionL (componentesAux la resto visG) ⊆ K := by
  intro resto
  induction resto with
  | nil => intro visG _; intro x hx; simp [componentesAux, unionL] at hx
  | cons m rest ih =>
    intro visG hK
    have hred : componentesAux la (m :: rest) visG =
        if m ∈ visG then componentesAux la rest visG
        else BFS_componente la m ::
          componentesAux la rest (visG ∪ BFS_componente la m) := rfl
    by_cases hv : m ∈ visG
    · rw [hred, if_pos hv]
      exact ih visG (fun n hn => hK n (List.mem_cons_of_mem _ hn))
    · rw [hred, if_neg hv, unionL_cons]
      apply Finset.union_subset
      · exact hK m (List.mem_cons_self _ _)
      · exact ih _ (fun n hn => hK n (List.mem_cons_of_mem _ hn))

theorem componentesAux_disjoint (la : AdjMap)
    (hsym : ∀ u ∈ adjKeys la, ∀ v ∈ vecinosIds la u, u ∈ vecinosIds la v) :
    ∀ (resto : List Node) (visG : Finset Node),
      (∀ x ∈ visG, ∀ y ∈ vecinosIds la x, y ∈ visG) →
      (∀ C ∈ componentesAux la resto visG, Disjoint C visG) ∧
      List.Pairwise (fun a b => Disjoint a b) (componentesAux la resto visG) := by
  intro resto
  induction resto with
  | nil =>
    intro visG _
    constructor
    · intro C hC; simp [componentesAux] at hC
    · show List.Pairwise _ ([] : List (Finset Node))
      exact List.Pairwise.nil
  | cons n rest ih =>
    intro visG hcl
    have hred : componentesAux la (n :: rest) visG =
        if n ∈ visG then componentesAux la rest visG
        else BFS_componente la n ::
          componentesAux la rest (visG ∪ BFS_componente la n) := rfl
    by_cases hv : n ∈ visG
    · rw [hred, if_pos hv]
      exact ih visG hcl
    · rw [hred, if_neg hv]
      have hcl' : ∀ x ∈ visG ∪ BFS_componente la n,
          ∀ y ∈ vecinosIds la x, y ∈ visG ∪ BFS_componente la n := by
        intro x hx y hy
        rcases Finset.mem_union.mp hx with h1 | h2
        · exact Finset.mem_union_left _ (hcl x h1 y hy)
        · exact Finset.mem_union_right _
            (BFS_componente_cerrado la n x h2 y hy)
      rcases ih (visG ∪ BFS_componente la n) hcl' with ⟨hdisj', hpair'⟩
      have hhd : Disjoint (BFS_componente la n) visG := by
        rw [Finset.disjoint_left]
        intro x hx hxv
        have hr : Reach la n x := (BFS_componente_mem_iff la n x).mp hx
        have hrx : Reach la x n := sym_reach hsym _ _ hr
        exact hv (reach_closed_mem hcl hrx hxv)
      constructor
      · intro C hC
        rcases List.mem_cons.mp hC with hCh | hCt
        · exact hCh ▸ hhd
        · exact (Finset.disjoint_union_right.mp (hdisj' C hCt)).1
      · refine List.pairwise_cons.mpr ⟨?_, hpair'⟩
        intro C hCt
        exact ((Finset.disjoint_union_right.mp (hdisj' C hCt)).2).symm

theorem componentes_union_keys (la : AdjMap)
    (hclo : ∀ n, ∀ v ∈ vecinosIds la n, v ∈ adjKeys la)
    (orden : List Node) (horden : orden.toFinset = adjKeysF la) :
    unionL (componentes la orden) = adjKeysF la := by
  apply Finset.Subset.antisymm
  · apply componentesAux_subset
    intro n hn
    have hnk : n ∈ adjKeys la := by
      have h1 : n ∈ orden.toFinset := List.mem_toFinset.mpr hn
      rw [horden] at h1
      exact List.mem_toFinset.mp h1
    exact BFS_subset_keys hclo hnk
  · intro n hn
    have hno : n ∈ orden := by
      rw [← List.mem_toFinset, horden]
      exact hn
    rcases componentesAux_cubre la orden ∅ n hno with h0 | hU
    · simp at h0
    · exact hU

theorem componentes_toFinset_image (la : AdjMap)
    (hsym : ∀ u ∈ adjKeys la, ∀ v ∈ vecinosIds la u, u ∈ vecinosIds la v)
    (orden : List Node) (horden : orden.toFinset = adjKeysF la) :
    (componentes la orden).toFinset =
      (adjKeysF la).image (fun n => BFS_componente la n) := by
  ext C
  simp only [List.mem_toFinset, Finset.mem_image]
  constructor
  · intro hC
    rcases componentesAux_shape la orden ∅ C hC with ⟨n, hn, -, hCn⟩
    refine ⟨n, ?_, hCn.symm⟩
    rw [← horden]
    exact List.mem_toFinset.mpr hn
  · rintro ⟨n, hnk, hC⟩
    have hn : n ∈ orden := by
      rw [← List.mem_toFinset, horden]
      exact hnk
    rcases componentesAux_cubre la orden ∅ n hn with h0 | hU
    · simp at h0
    · rcases mem_unionL hU with ⟨C', hC', hnC'⟩
      rcases componentesAux_shape la orden ∅ C' hC' with ⟨s, -, -, hCs⟩
      have hr : Reach la s n :=
        (BFS_componente_mem_iff la s n).mp (hCs ▸ hnC')
      have heq : BFS_componente la n = C' := by
        rw [hCs]
        exact (BFS_eq_of_reach hsym hr).symm
      rw [← hC, heq]
      exact hC'

/-- C5 fails as stated: the adjacency built from one-way edges is
directed, and the discovery loop's BFS follows arcs forward only.  With
the single one-way arc `0 → 1`, iterating the nodes as `[1, 0]` discovers
`{1}` and then `{0, 1}` — two overlapping "components" — while the order
`[0, 1]` discovers just `{0, 1}`: the family is not pairwise disjoint and
the partition depends on the iteration order. -/
theorem componentPartition_counterexample :
    ([1, 0] : List Node).toFinset = adjKeysF [(0, [(1, 5, 1)]), (1, [])] ∧
    ([0, 1] : List Node).toFinset = adjKeysF [(0, [(1, 5, 1)]), (1, [])] ∧
    componentes [(0, [(1, 5, 1)]), (1, [])] [1, 0] = [{1}, {0, 1}] ∧
    ¬ List.Pairwise (fun a b => Disjoint a b)
      (componentes [(0, [(1, 5, 1)]), (1, [])] [1, 0]) ∧
    (componentes [(0, [(1, 5, 1)]), (1, [])] [1, 0]).toFinset ≠
      (componentes [(0, [(1, 5, 1)]), (1, [])] [0, 1]).toFinset :=
  ⟨by decide, by decide, by decide, by decide, by decide⟩

/-- C5 amended: for every adjacency map that is symmetric (every inserted
arc has its reverse — e.g. a graph with no one-way edges), the discovery
loop produces components whose union is the full key set, which are
pairwise disjoint, and whose collection does not depend on the iteration
order over the nodes.  For directed adjacencies (one-way edges present)
the BFS computes forward reachability and the claim fails (see the
counterexample). -/
theorem componentPartition_amended (la : AdjMap)
    (hsym : ∀ u ∈ adjKeys la, ∀ v ∈ vecinosIds la u, u ∈ vecinosIds la v)
    (orden : List Node) (horden : orden.toFinset = adjKeysF la) :
    unionL (componentes la orden) = adjKeysF la ∧
    List.Pairwise (fun a b => Disjoint a b) (componentes la orden) ∧
    ∀ orden2 : List Node, orden2.toFinset = adjKeysF la →
      (componentes la orden2).toFinset = (componentes la orden).toFinset := by
  refine ⟨componentes_union_keys la (sym_closure hsym) orden horden, ?_, ?_⟩
  · exact (componentesAux_disjoint la hsym orden ∅
      (by intro x hx; exact absurd hx (Finset.not_mem_empty x))).2
  · intro orden2 h2
    rw [componentes_toFinset_image la hsym orden horden,
      componentes_toFinset_image la hsym orden2 h2]

theorem componentPartition_amended_witness :
    (∀ u ∈ adjKeys [(0, [(1, 5, 1)]), (1, [(0, 5, 1)]), (2, [])],
      ∀ v ∈ vecinosIds [(0, [(1, 5, 1)]), (1, [(0, 5, 1)]), (2, [])] u,
        u ∈ vecinosIds [(0, [(1, 5, 1)]), (1, [(0, 5, 1)]), (2, [])] v) ∧
    ([0, 1, 2] : List Node).toFinset =
      adjKeysF [(0, [(1, 5, 1)]), (1, [(0, 5, 1)]), (2, [])] ∧
    (unionL (componentes [(0, [(1, 5, 1)]), (1, [(0, 5, 1)]), (2, [])]
          [0, 1, 2]) =
        adjKeysF [(0, [(1, 5, 1)]), (1, [(0, 5, 1)]), (2, [])] ∧
      List.Pairwise (fun a b => Disjoint a b)
        (componentes [(0, [(1, 5, 1)]), (1, [(0, 5, 1)]), (2, [])] [0, 1, 2]) ∧
      ∀ orden2 : List Node, orden2.toFinset =
          adjKeysF [(0, [(1, 5, 1)]), (1, [(0, 5, 1)]), (2, [])] →
        (componentes [(0, [(1, 5, 1)]), (1, [(0, 5, 1)]), (2, [])]
            orden2).toFinset =
          (componentes [(0, [(1, 5, 1)]), (1, [(0, 5, 1)]), (2, [])]
            [0, 1, 2]).toFinset) :=
  ⟨by decide, by decide, componentPartition_amended _ (by decide) _ (by decide)⟩

/-! ### Key-set and closure lemmas for the builder -/

theorem any_key_map {α : Type} (m : List (Node × α)) (k : Node) :
    m.any (fun p => p.1 == k) =
      (m.map (fun p => p.1)).any (fun x => x == k) := by
  induction m with
  | nil => rfl
  | cons p rest ih => simp only [List.any_cons, List.map_cons, ih]

theorem dictSet_vals {α : Type} {m : List (Node × α)} {k : Node} {v : α}
    {p : Node × α} (hp : p ∈ dictSet m k v) : p.2 = v ∨ p ∈ m := by
  unfold dictSet at hp
  by_cases hany : m.any (fun q => q.1 == k) = true
  · rw [if_pos hany] at hp
    rcases List.mem_map.mp hp with ⟨q, hq, hfq⟩
    by_cases hqk : q.1 = k
    · left
      rw [← hfq]
      simp [hqk]
    · right
      have hb : (q.1 == k) = false := by simp [hqk]
      rw [← hfq]
      simp [hb]
      exact hq
  · rw [if_neg hany] at hp
    rcases List.mem_append.mp hp with h1 | h2
    · exact Or.inr h1
    · left
      have : p = (k, v) := by simpa using h2
      rw [this]

theorem buildNodes_go_vals (rns : List RawNode) (acc : NodeMap × AdjMap)
    (h : ∀ p ∈ acc.2, p.2 = ([] : List Vecino)) :
    ∀ p ∈ (rns.foldl pasoNodo acc).2, p.2 = [] := by
  induction rns generalizing acc with
  | nil => exact h
  | cons r rest ih =>
    rw [List.foldl_cons]
    apply ih
    intro p hp
    rcases dictSet_vals hp with h1 | h2
    · exact h1
    · exact h p h2

theorem buildNodes_go_nodup (rns : List RawNode) (acc : NodeMap × AdjMap)
    (h : ((acc.2.map (fun p => p.1)).Nodup)) :
    (((rns.foldl pasoNodo acc).2.map (fun p => p.1)).Nodup) := by
  induction rns generalizing acc with
  | nil => exact h
  | cons r rest ih =>
    rw [List.foldl_cons]
    apply ih
    show ((dictSet acc.2 r.1 []).map (fun p => p.1)).Nodup
    rw [dictSet_keys]
    by_cases hany : acc.2.any (fun p => p.1 == r.1) = true
    · rw [if_pos hany]
      exact h
    · rw [if_neg hany]
      have hnotin : r.1 ∉ acc.2.map (fun p => p.1) := by
        intro hc
        exact hany ((any_key_iff _ _).mpr hc)
      rw [List.nodup_append]
      exact ⟨h, List.nodup_singleton _, by
        intro a ha hb
        have : a = r.1 := by simpa using hb
        exact hnotin (this ▸ ha)⟩

theorem buildNodes_go_keys_eq (rns : List RawNode) (acc : NodeMap × AdjMap)
    (h : acc.1.map (fun p => p.1) = acc.2.map (fun p => p.1)) :
    (rns.foldl pasoNodo acc).1.map (fun p => p.1) =
      (rns.foldl pasoNodo acc).2.map (fun p => p.1) := by
  induction rns generalizing acc with
  | nil => exact h
  | cons r rest ih =>
    rw [List.foldl_cons]
    apply ih
    show (dictSet acc.1 r.1 _).map (fun p => p.1) =
      (dictSet acc.2 r.1 []).map (fun p => p.1)
    have hany : (acc.1.any (fun p => p.1 == r.1)) =
        (acc.2.any (fun p => p.1 == r.1)) := by
      rw [any_key_map, any_key_map, h]
    rw [dictSet_keys, dictSet_keys, h, hany]

theorem buildNodes_go_keysF (rns : List RawNode) (acc : NodeMap × AdjMap) :
    ((rns.foldl pasoNodo acc).2.map (fun p => p.1)).toFinset =
      (acc.2.map (fun p => p.1)).toFinset ∪ (nodeIds rns).toFinset := by
  induction rns generalizing acc with
  | nil => simp [nodeIds]
  | cons r rest ih =>
    rw [List.foldl_cons, ih]
    have hr1 : ((dictSet acc.2 r.1 ([] : List Vecino)).map
        (fun p => p.1)).toFinset =
        insert r.1 ((acc.2.map (fun p => p.1)).toFinset) := by
      rw [dictSet_keys]
      by_cases hany : acc.2.any (fun p => p.1 == r.1) = true
      · rw [if_pos hany]
        have hr : r.1 ∈ acc.2.map (fun p => p.1) := (any_key_iff _ _).mp hany
        ext a
        simp only [List.mem_toFinset, Finset.mem_insert]
        constructor
        · exact Or.inr
        · rintro (ha | ha)
          · exact ha ▸ hr
          · exact ha
      · rw [if_neg hany]
        ext a
        simp only [List.mem_toFinset, List.mem_append, List.mem_singleton,
          Finset.mem_insert]
        tauto
    have hpaso : (pasoNodo acc r).2 = dictSet acc.2 r.1 [] := rfl
    rw [hpaso, hr1]
    ext a
    simp only [Finset.mem_union, Finset.mem_insert, List.mem_toFinset,
      nodeIds, List.map_cons, List.mem_cons]
    tauto

theorem dictGet?_of_mem_nodup {α : Type} {m : List (Node × α)}
    (hnd : (m.map (fun p => p.1)).Nodup) {p : Node × α} (hp : p ∈ m) :
    dictGet? m p.1 = some p.2 := by
  induction m with
  | nil => simp at hp
  | cons q rest ih =>
    rw [List.map_cons, List.nodup_cons] at hnd
    rcases List.mem_cons.mp hp with hpq | hpr
    · subst hpq
      rw [dictGet?_cons, if_pos rfl]
    · have hne : q.1 ≠ p.1 := by
        intro hc
        exact hnd.1 (hc ▸ List.mem_map.mpr ⟨p, hpr, rfl⟩)
      rw [dictGet?_cons, if_neg hne]
      exact ih hnd.2 hpr

theorem foldEdges_closure (rawEdges : List RawEdge) :
    ∀ (la laF : AdjMap),
      rawEdges.foldlM procesaArista la = some laF →
      (∀ e ∈ rawEdges, e.v ∈ la.map (fun p => p.1)) →
      (∀ n, ∀ v ∈ vecinosIds la n, v ∈ adjKeys la) →
      ∀ n, ∀ v ∈ vecinosIds laF n, v ∈ adjKeys laF := by
  induction rawEdges with
  | nil =>
    intro la laF h hend hclo
    have hla : la = laF := by simpa using h
    subst hla
    exact hclo
  | cons e rest ih =>
    intro la laF h hend hclo
    rw [List.foldlM_cons] at h
    cases hp : procesaArista la e with
    | none => rw [hp] at h; exact absurd h (by simp)
    | some la1 =>
      rw [hp] at h
      have h2 : rest.foldlM procesaArista la1 = some laF := h
      rcases procesaArista_some hp with ⟨hkeys, hu, -, -, -, -, hsrc⟩
      apply ih la1 laF h2
      · intro e' he'
        rw [hkeys]
        exact hend e' (List.mem_cons_of_mem _ he')
      · intro n v hv
        unfold vecinosIds at hv
        rcases List.mem_map.mp hv with ⟨x, hx, hxv⟩
        show v ∈ la1.map (fun p => p.1)
        rw [hkeys]
        rcases hsrc n x hx with h0 | hfwd | hrev
        · have : x.1 ∈ vecinosIds la n :=
            List.mem_map.mpr ⟨x, h0, rfl⟩
          rw [hxv] at this
          exact hclo n v this
        · rw [← hxv, hfwd]
          exact hend e (List.mem_cons_self _ _)
        · rw [← hxv, hrev]
          exact hu

/-! ### Reducer lemmas -/

theorem mapM_keyed_spec {α : Type} (f : Node → Option α) (key : α → Node)
    (hf : ∀ n a, f n = some a → key a = n) :
    ∀ (ns : List Node) (L : List α), ns.mapM f = some L → L.map key = ns := by
  intro ns
  induction ns with
  | nil =>
    intro L h
    have hL0 : (some ([] : List α) : Option (List α)) = some L := h
    have hL : L = [] := (Option.some_injective _ hL0).symm
    subst hL
    rfl
  | cons n rest ih =>
    intro L h
    rw [List.mapM_cons] at h
    cases hfn : f n with
    | none => rw [hfn] at h; exact absurd h (by simp)
    | some a =>
      rw [hfn] at h
      have h2 : (rest.mapM f).bind (fun xs => some (a :: xs)) = some L := h
      cases hrest : rest.mapM f with
      | none => rw [hrest] at h2; exact absurd h2 (by simp)
      | some xs =>
        rw [hrest] at h2
        have hL : a :: xs = L := by simpa using h2
        rw [← hL, List.map_cons, hf n a hfn, ih xs hrest]

theorem mapM_all {α : Type} (f : Node → Option α) (P : α → Prop)
    (hf : ∀ n a, f n = some a → P a) :
    ∀ (ns : List Node) (L : List α), ns.mapM f = some L → ∀ a ∈ L, P a := by
  intro ns
  induction ns with
  | nil =>
    intro L h
    have hL0 : (some ([] : List α) : Option (List α)) = some L := h
    have hL : L = [] := (Option.some_injective _ hL0).symm
    subst hL
    simp
  | cons n rest ih =>
    intro L h
    rw [List.mapM_cons] at h
    cases hfn : f n with
    | none => rw [hfn] at h; exact absurd h (by simp)
    | some a =>
      rw [hfn] at h
      have h2 : (rest.mapM f).bind (fun xs => some (a :: xs)) = some L := h
      cases hrest : rest.mapM f with
      | none => rw [hrest] at h2; exact absurd h2 (by simp)
      | some xs =>
        rw [hrest] at h2
        have hL : a :: xs = L := by simpa using h2
        subst hL
        intro b hb
        rcases List.mem_cons.mp hb with hba | hbx
        · exact hba ▸ hf n a hfn
        · exact ih xs hrest b hbx

theorem sortNodes_toFinset (s : Finset Node) : (sortNodes s).toFinset = s := by
  ext a
  simp only [sortNodes, List.mem_toFinset, List.mem_filter, List.mem_range]
  constructor
  · rintro ⟨-, ha⟩
    exact of_decide_eq_true ha
  · intro ha
    refine ⟨?_, decide_eq_true ha⟩
    have hle : id a ≤ s.sup id := Finset.le_sup ha
    exact Nat.lt_succ_of_le hle

theorem restrictAdy_spec {la : AdjMap} {cp : Finset Node} {L : AdjMap}
    (h : restrictAdy la cp = some L) :
    L.map (fun p => p.1) = sortNodes cp ∧
    ∀ p ∈ L, ∀ vi ∈ p.2, vi.1 ∈ cp := by
  constructor
  · refine mapM_keyed_spec _ (fun p => p.1) ?_ _ _ h
    intro n a ha
    cases hlk : lookupAdj? la n with
    | none => rw [hlk] at ha; exact absurd ha (by simp)
    | some vec =>
      rw [hlk] at ha
      have : (n, vec.filter (fun vi => decide (vi.1 ∈ cp))) = a := by
        simpa using ha
      rw [← this]
  · refine mapM_all _ (fun p => ∀ vi ∈ p.2, vi.1 ∈ cp) ?_ _ _ h
    intro n a ha
    cases hlk : lookupAdj? la n with
    | none => rw [hlk] at ha; exact absurd ha (by simp)
    | some vec =>
      rw [hlk] at ha
      have ha2 : (n, vec.filter (fun vi => decide (vi.1 ∈ cp))) = a := by
        simpa using ha
      rw [← ha2]
      intro vi hvi
      have := List.mem_filter.mp hvi
      exact of_decide_eq_true this.2

theorem restrictNodes_spec {ni : NodeMap} {cp : Finset Node} {L : NodeMap}
    (h : restrictNodes ni cp = some L) :
    L.map (fun p => p.1) = sortNodes cp := by
  refine mapM_keyed_spec _ (fun p => p.1) ?_ _ _ h
  intro n a ha
  cases hlk : lookupNode? ni n with
  | none => rw [hlk] at ha; exact absurd ha (by simp)
  | some xy =>
    rw [hlk] at ha
    have : (n, xy) = a := by simpa using ha
    rw [← this]

/-- C7: if the full node set forms exactly one component, the Graph
Reducer is the identity transform on the node-attribute and adjacency
maps, and running it twice on such a graph yields exactly the result of
running it once. -/
theorem reducerIdentity (la : AdjMap) (ni : NodeMap) (orden : List Node)
    (h : (componentes la orden).length = 1) :
    reducePipeline la ni orden = some (la, ni) ∧
    (reducePipeline la ni orden).bind
        (fun p => reducePipeline p.1 p.2 orden) =
      reducePipeline la ni orden := by
  have hle : (componentes la orden).length ≤ 1 := by omega
  have hid : reducePipeline la ni orden = some (la, ni) := by
    show (if (componentes la orden).length ≤ 1 then some (la, ni)
      else _) = some (la, ni)
    rw [if_pos hle]
  refine ⟨hid, ?_⟩
  rw [hid]
  show reducePipeline la ni orden = some (la, ni)
  exact hid

set_option synthInstance.maxSize 512 in
theorem reducerIdentity_witness :
    (componentes [(0, [(1, 5, 1)]), (1, [(0, 5, 1)])] [0, 1]).length = 1 ∧
    (reducePipeline [(0, [(1, 5, 1)]), (1, [(0, 5, 1)])]
        [(0, 0, 0), (1, 0, 0)] [0, 1] =
      some ([(0, [(1, 5, 1)]), (1, [(0, 5, 1)])], [(0, 0, 0), (1, 0, 0)]) ∧
    (reducePipeline [(0, [(1, 5, 1)]), (1, [(0, 5, 1)])]
        [(0, 0, 0), (1, 0, 0)] [0, 1]).bind
        (fun p => reducePipeline p.1 p.2 [0, 1]) =
      reducePipeline [(0, [(1, 5, 1)]), (1, [(0, 5, 1)])]
        [(0, 0, 0), (1, 0, 0)] [0, 1]) :=
  ⟨by decide, reducerIdentity _ _ _ (by decide)⟩

/-- C6: after the build, the adjacency keys equal the node-attribute keys
(so "nodes with adjacency entries ⊆ nodes in node-attribute map" holds at
that stage); after the Graph Reducer runs, both key sets equal exactly
the chosen component's node set, and every neighbour in any retained
adjacency entry lies in that set.  The input is assumed well-formed:
every edge destination is a declared node id (the spec's precondition;
origins are forced to be declared ids by the build succeeding). -/
theorem adjacencyInvariant (rawNodes : List RawNode) (rawEdges : List RawEdge)
    (ni : NodeMap) (la : AdjMap) (orden : List Node) (la2 : AdjMap)
    (ni2 : NodeMap)
    (hb : construirAdy rawNodes rawEdges = some (ni, la))
    (hend : ∀ e ∈ rawEdges, e.v ∈ nodeIds rawNodes)
    (horden : orden.toFinset = adjKeysF la)
    (hr : reducePipeline la ni orden = some (la2, ni2)) :
    nodeKeysF ni = adjKeysF la ∧
    adjKeysF la2 = componente_principal (componentes la orden) ∧
    nodeKeysF ni2 = componente_principal (componentes la orden) ∧
    ∀ p ∈ la2, ∀ vi ∈ p.2,
      vi.1 ∈ componente_principal (componentes la orden) := by
  rcases construirAdy_some hb with ⟨hni, hf⟩
  rcases foldEdges_keys_mono rawEdges (buildNodes rawNodes).2 la hf with
    ⟨hkeys, -⟩
  have hkeq : ni.map (fun p => p.1) = la.map (fun p => p.1) := by
    rw [hni, hkeys]
    exact buildNodes_go_keys_eq rawNodes ([], []) rfl
  have hstage1 : nodeKeysF ni = adjKeysF la := by
    unfold nodeKeysF adjKeysF adjKeys
    rw [hkeq]
  have hkeysla0 : (((buildNodes rawNodes).2.map (fun p => p.1)).toFinset) =
      (nodeIds rawNodes).toFinset := by
    have hk := buildNodes_go_keysF rawNodes ([], [])
    simpa using hk
  have hclo : ∀ n, ∀ v ∈ vecinosIds la n, v ∈ adjKeys la := by
    apply foldEdges_closure rawEdges (buildNodes rawNodes).2 la hf
    · intro e he
      have h1 : e.v ∈ (nodeIds rawNodes).toFinset :=
        List.mem_toFinset.mpr (hend e he)
      rw [← hkeysla0] at h1
      exact List.mem_toFinset.mp h1
    · intro n v hv
      exfalso
      unfold vecinosIds lookupAdjD lookupAdj? at hv
      cases hlk : dictGet? (buildNodes rawNodes).2 n with
      | none => rw [hlk] at hv; simp at hv
      | some l =>
        rw [hlk] at hv
        have hl : l = [] :=
          buildNodes_go_vals rawNodes ([], []) (by simp) _ (dictGet?_mem hlk)
        rw [hl] at hv
        simp at hv
  have hnodup : (la.map (fun p => p.1)).Nodup := by
    rw [hkeys]
    exact buildNodes_go_nodup rawNodes ([], []) (by simp)
  have hunion : unionL (componentes la orden) = adjKeysF la :=
    componentes_union_keys la hclo orden horden
  by_cases hlen : (componentes la orden).length ≤ 1
  · have hid : reducePipeline la ni orden = some (la, ni) := by
      show (if (componentes la orden).length ≤ 1 then some (la, ni)
        else _) = some (la, ni)
      rw [if_pos hlen]
    rw [hid] at hr
    have hpair : (la, ni) = (la2, ni2) := Option.some_injective _ hr
    have hla2 : la = la2 := congrArg Prod.fst hpair
    have hni2 : ni = ni2 := congrArg Prod.snd hpair
    have hcpk : componente_principal (componentes la orden) = adjKeysF la := by
      rcases Nat.le_one_iff_eq_zero_or_eq_one.mp hlen with h0 | h1
      · have hempty : componentes la orden = [] := List.length_eq_zero.mp h0
        have hkeys0 : adjKeysF la = ∅ := by
          rw [← hunion, hempty]
          rfl
        rw [hempty, hkeys0]
        rfl
      · rcases List.length_eq_one.mp h1 with ⟨c, hc⟩
        have hcu : adjKeysF la = c := by
          rw [← hunion, hc, unionL_cons]
          show c ∪ unionL [] = c
          show c ∪ ∅ = c
          exact Finset.union_empty c
        have hcpc : componente_principal (componentes la orden) = c := by
          rw [hc, componente_principal_eq_spec [c] (by simp)]
          show (if (specSelectComponent []).card ≤ c.card then c
            else specSelectComponent []) = c
          rw [if_pos]
          show (∅ : Finset Node).card ≤ c.card
          simp
        rw [hcpc, hcu]
    refine ⟨hstage1, ?_, ?_, ?_⟩
    · rw [← hla2, hcpk]
    · rw [← hni2, hcpk, ← hstage1]
    · intro p hp vi hvi
      rw [hcpk]
      have hp' : p ∈ la := by rw [hla2]; exact hp
      have hlk : dictGet? la p.1 = some p.2 := dictGet?_of_mem_nodup hnodup hp'
      have hvm : vi.1 ∈ vecinosIds la p.1 := by
        unfold vecinosIds lookupAdjD lookupAdj?
        rw [hlk]
        exact List.mem_map.mpr ⟨vi, hvi, rfl⟩
      show vi.1 ∈ (adjKeys la).toFinset
      exact List.mem_toFinset.mpr (hclo _ _ hvm)
  · have hred : reducePipeline la ni orden =
        (restrictAdy la (componente_principal (componentes la orden))).bind
          (fun L =>
            (restrictNodes ni
              (componente_principal (componentes la orden))).bind
              (fun M => some (L, M))) := by
      show (if (componentes la orden).length ≤ 1 then some (la, ni)
        else _) = _
      rw [if_neg hlen]
      rfl
    rw [hred] at hr
    cases hra : restrictAdy la (componente_principal (componentes la orden)) with
    | none => rw [hra] at hr; exact absurd hr (by simp)
    | some L =>
      rw [hra] at hr
      have hr2 : (restrictNodes ni
          (componente_principal (componentes la orden))).bind
          (fun M => some (L, M)) = some (la2, ni2) := hr
      cases hrn : restrictNodes ni
          (componente_principal (componentes la orden)) with
      | none => rw [hrn] at hr2; exact absurd hr2 (by simp)
      | some M =>
        rw [hrn] at hr2
        have hLM : (L, M) = (la2, ni2) := by simpa using hr2
        have hL : L = la2 := congrArg Prod.fst hLM
        have hM : M = ni2 := congrArg Prod.snd hLM
        subst hL
        subst hM
        rcases restrictAdy_spec hra with ⟨hkeysL, hnb⟩
        have hkeysM := restrictNodes_spec hrn
        refine ⟨hstage1, ?_, ?_, hnb⟩
        · show (adjKeys L).toFinset = _
          unfold adjKeys
          rw [hkeysL, sortNodes_toFinset]
        · show (M.map (fun p => p.1)).toFinset = _
          rw [hkeysM, sortNodes_toFinset]

set_option synthInstance.maxSize 512 in
theorem adjacencyInvariant_witness :
    (construirAdy
        [(1, Option.none, Option.none), (2, Option.none, Option.none),
          (3, Option.none, Option.none), (4, Option.none, Option.none)]
        [⟨1, 2, some 500, PyVal.none⟩, ⟨3, 4, some 500, PyVal.none⟩] =
      some ([(1, 0, 0), (2, 0, 0), (3, 0, 0), (4, 0, 0)],
        [(1, [(2, 500, 1)]), (2, [(1, 500, 1)]),
          (3, [(4, 500, 1)]), (4, [(3, 500, 1)])])) ∧
    (∀ e ∈ [(⟨1, 2, some 500, PyVal.none⟩ : RawEdge),
        ⟨3, 4, some 500, PyVal.none⟩],
      RawEdge.v e ∈ nodeIds
        [(1, Option.none, Option.none), (2, Option.none, Option.none),
          (3, Option.none, Option.none), (4, Option.none, Option.none)]) ∧
    (([1, 2, 3, 4] : List Node).toFinset = adjKeysF
      [(1, [(2, 500, 1)]), (2, [(1, 500, 1)]),
        (3, [(4, 500, 1)]), (4, [(3, 500, 1)])]) ∧
    (reducePipeline
        [(1, [(2, 500, 1)]), (2, [(1, 500, 1)]),
          (3, [(4, 500, 1)]), (4, [(3, 500, 1)])]
        [(1, 0, 0), (2, 0, 0), (3, 0, 0), (4, 0, 0)] [1, 2, 3, 4] =
      some ([(1, [(2, 500, 1)]), (2, [(1, 500, 1)])],
        [(1, 0, 0), (2, 0, 0)])) ∧
    (nodeKeysF [(1, 0, 0), (2, 0, 0), (3, 0, 0), (4, 0, 0)] = adjKeysF
        [(1, [(2, 500, 1)]), (2, [(1, 500, 1)]),
          (3, [(4, 500, 1)]), (4, [(3, 500, 1)])] ∧
      adjKeysF [(1, [(2, 500, 1)]), (2, [(1, 500, 1)])] =
        componente_principal (componentes
          [(1, [(2, 500, 1)]), (2, [(1, 500, 1)]),
            (3, [(4, 500, 1)]), (4, [(3, 500, 1)])] [1, 2, 3, 4]) ∧
      nodeKeysF [(1, 0, 0), (2, 0, 0)] =
        componente_principal (componentes
          [(1, [(2, 500, 1)]), (2, [(1, 500, 1)]),
            (3, [(4, 500, 1)]), (4, [(3, 500, 1)])] [1, 2, 3, 4]) ∧
      ∀ p ∈ ([(1, [(2, 500, 1)]), (2, [(1, 500, 1)])] : AdjMap),
        ∀ vi ∈ p.2, vi.1 ∈
          componente_principal (componentes
            [(1, [(2, 500, 1)]), (2, [(1, 500, 1)]),
              (3, [(4, 500, 1)]), (4, [(3, 500, 1)])] [1, 2, 3, 4])) := by
  have hm : metros_a_minutos 500 = 1 := by
    norm_num [metros_a_minutos, minutosSinRedondear, velocidad_kmh, pyRound2,
      roundHalfEven, Int.fract]
  have hbuild : construirAdy
      [(1, Option.none, Option.none), (2, Option.none, Option.none),
        (3, Option.none, Option.none), (4, Option.none, Option.none)]
      [⟨1, 2, some 500, PyVal.none⟩, ⟨3, 4, some 500, PyVal.none⟩] =
      some ([(1, 0, 0), (2, 0, 0), (3, 0, 0), (4, 0, 0)],
        [(1, [(2, 500, 1)]), (2, [(1, 500, 1)]),
          (3, [(4, 500, 1)]), (4, [(3, 500, 1)])]) := by
    simp [construirAdy, buildNodes, pasoNodo, dictSet, List.foldlM,
      procesaArista, appendEdge?, pesoArista, tiempoArista, esDobleSentido,
      pyEq, hm]
  exact ⟨hbuild, by decide, by decide, by decide,
    adjacencyInvariant _ _ _ _ _ _ _ hbuild (by decide) (by decide)
      (by decide)⟩

/-! ### Sampler lemmas -/

theorem encolaMuestra_spec :
    ∀ (vecinos cola : List Node) (subLen : Nat) (vis : Finset Node),
      ∃ l : List Node,
        encolaMuestra vecinos cola subLen vis = (cola ++ l, vis ∪ l.toFinset) ∧
        l.Nodup ∧ (∀ x ∈ l, x ∉ vis) := by
  intro vecinos
  induction vecinos with
  | nil =>
    intro cola subLen vis
    exact ⟨[], by simp [encolaMuestra], List.nodup_nil, by simp⟩
  | cons v rest ih =>
    intro cola subLen vis
    have hred : encolaMuestra (v :: rest) cola subLen vis =
        if v ∉ vis ∧ subLen + cola.length < 1000 then
          encolaMuestra rest (cola ++ [v]) subLen (insert v vis)
        else encolaMuestra rest cola subLen vis := rfl
    by_cases hcond : v ∉ vis ∧ subLen + cola.length < 1000
    · rcases ih (cola ++ [v]) subLen (insert v vis) with ⟨l, heq, hnd, hmem⟩
      refine ⟨v :: l, ?_, ?_, ?_⟩
      · rw [hred, if_pos hcond, heq]
        have h1 : cola ++ [v] ++ l = cola ++ v :: l := by simp
        have h2 : insert v vis ∪ l.toFinset = vis ∪ (v :: l).toFinset := by
          rw [List.toFinset_cons, Finset.insert_union, Finset.union_insert]
        rw [h1, h2]
      · refine List.nodup_cons.mpr ⟨?_, hnd⟩
        intro hvl
        exact hmem v hvl (Finset.mem_insert_self v vis)
      · intro x hx
        rcases List.mem_cons.mp hx with hxv | hxl
        · exact hxv ▸ hcond.1
        · intro hxvis
          exact hmem x hxl (Finset.mem_insert_of_mem hxvis)
    · rcases ih cola subLen vis with ⟨l, heq, hnd, hmem⟩
      refine ⟨l, ?_, hnd, hmem⟩
      rw [hred, if_neg hcond, heq]

theorem nodup_length_le_of_subset {l s : List Node} (hnd : l.Nodup)
    (hsub : ∀ x ∈ l, x ∈ s) : l.length ≤ s.length := by
  have h1 : l.toFinset.card = l.length := List.toFinset_card_of_nodup hnd
  have h2 : l.toFinset ⊆ s.toFinset := by
    intro a ha
    exact List.mem_toFinset.mpr (hsub a (List.mem_toFinset.mp ha))
  have h3 : l.toFinset.card ≤ s.toFinset.card := Finset.card_le_card h2
  have h4 : s.toFinset.card ≤ s.length := s.toFinset_card_le
  omega

theorem length_filter_split (l : List Node) (p : Node → Bool) :
    (l.filter p).length + (l.filter (fun x => !(p x))).length = l.length := by
  induction l with
  | nil => rfl
  | cons a rest ih =>
    by_cases h : p a = true <;>
      simp [List.filter_cons, h, ← ih] <;> omega

theorem muestraLoop_spec (la : AdjMap) (shuffle : List Node → List Node) :
    ∀ (fuel : Nat) (cola sub : List Node) (vis : Finset Node),
      (sub ++ cola).Nodup →
      (∀ x ∈ sub ++ cola, x ∈ vis) →
      sub.length + fuel ≤ 100 →
      (muestraLoop la shuffle fuel cola sub vis).Nodup ∧
      (muestraLoop la shuffle fuel cola sub vis).length ≤ 100 := by
  intro fuel
  induction fuel with
  | zero =>
    intro cola sub vis hnd hvis hlen
    refine ⟨(List.nodup_append.mp hnd).1, ?_⟩
    show sub.length ≤ 100
    omega
  | succ f ih =>
    intro cola sub vis hnd hvis hlen
    cases cola with
    | nil =>
      refine ⟨by simpa using hnd, ?_⟩
      show sub.length ≤ 100
      omega
    | cons nodo rest =>
      have hred : muestraLoop la shuffle (f + 1) (nodo :: rest) sub vis =
          if sub.length < 100 then
            muestraLoop la shuffle f
              (encolaMuestra (shuffle (vecinosIds la nodo)) rest
                (sub ++ [nodo]).length vis).1
              (sub ++ [nodo])
              (encolaMuestra (shuffle (vecinosIds la nodo)) rest
                (sub ++ [nodo]).length vis).2
          else sub := rfl
      by_cases hsl : sub.length < 100
      · rcases encolaMuestra_spec (shuffle (vecinosIds la nodo)) rest
          (sub ++ [nodo]).length vis with ⟨l, heq, hlnd, hlmem⟩
        rw [hred, if_pos hsl, heq]
        apply ih
        · have hassoc : sub ++ [nodo] ++ (rest ++ l) =
              (sub ++ nodo :: rest) ++ l := by simp
          rw [hassoc, List.nodup_append]
          refine ⟨hnd, hlnd, ?_⟩
          intro a ha hal
          exact hlmem a hal (hvis a ha)
        · intro x hx
          rcases List.mem_append.mp hx with hx1 | hx2
          · rcases List.mem_append.mp hx1 with hxs | hxn
            · exact Finset.mem_union_left _
                (hvis x (List.mem_append_left _ hxs))
            · have hxn2 : x = nodo := by simpa using hxn
              exact Finset.mem_union_left _ (hvis x
                (List.mem_append_right _ (hxn2 ▸ List.mem_cons_self _ _)))
          · rcases List.mem_append.mp hx2 with hxr | hxl
            · exact Finset.mem_union_left _
                (hvis x (List.mem_append_right _ (List.mem_cons_of_mem _ hxr)))
            · exact Finset.mem_union_right _ (List.mem_toFinset.mpr hxl)
        · rw [List.length_append]
          simp only [List.length_singleton]
          omega
      · rw [hred, if_neg hsl]
        refine ⟨(List.nodup_append.mp hnd).1, ?_⟩
        omega

/-- C2: the Subgraph Sampler returns all keys when the retained graph has
at most 100 nodes — in particular the full node list when there are fewer
than 100 and the empty sample for an empty graph — and a duplicate-free
node list of exactly the target size 100 whenever the graph has at least
100 nodes, for any start node and any shuffle that permutes its input. -/
theorem samplerSize (la : AdjMap) (shuffle : List Node → List Node)
    (hsh : ∀ l, List.Perm (shuffle l) l) (inicio : Node)
    (hk : (adjKeys la).Nodup) :
    (100 ≤ (adjKeys la).length →
      (subgrafoNodos la shuffle inicio).length = 100 ∧
      (subgrafoNodos la shuffle inicio).Nodup) ∧
    ((adjKeys la).length < 100 →
      subgrafoNodos la shuffle inicio = adjKeys la) ∧
    (la = [] → subgrafoNodos la shuffle inicio = []) := by
  by_cases hle : (adjKeys la).length ≤ 100
  · have hres : subgrafoNodos la shuffle inicio = adjKeys la := by
      show (if (adjKeys la).length ≤ 100 then adjKeys la else _) = adjKeys la
      rw [if_pos hle]
    refine ⟨?_, fun _ => hres, fun hla => ?_⟩
    · intro h100
      rw [hres]
      exact ⟨le_antisymm hle h100, hk⟩
    · rw [hres, hla]
      rfl
  · push_neg at hle
    have hmain : (subgrafoNodos la shuffle inicio).length = 100 ∧
        (subgrafoNodos la shuffle inicio).Nodup := by
      rcases muestraLoop_spec la shuffle 100 [inicio] [] {inicio}
        (by simp) (by intro x hx; simp at hx; simp [hx]) (by simp)
        with ⟨hSnd, hSle⟩
      set S := muestraLoop la shuffle 100 [inicio] [] {inicio} with hS
      have hres : subgrafoNodos la shuffle inicio =
          if S.length < 100 then
            S ++ (shuffle ((adjKeys la).filter (fun n => decide (n ∉ S)))).take
              (min (100 - S.length)
                (shuffle ((adjKeys la).filter
                  (fun n => decide (n ∉ S)))).length)
          else S := by
        show (if (adjKeys la).length ≤ 100 then adjKeys la else _) = _
        rw [if_neg (by omega)]
      by_cases hSl : S.length < 100
      · rw [hres, if_pos hSl]
        have hexlen :
            (shuffle ((adjKeys la).filter (fun n => decide (n ∉ S)))).length =
            ((adjKeys la).filter (fun n => decide (n ∉ S))).length :=
          (hsh _).length_eq
        have hcount : (adjKeys la).length ≤
            ((adjKeys la).filter (fun n => decide (n ∉ S))).length +
              S.length := by
          have hsplit :=
            length_filter_split (adjKeys la) (fun n => decide (n ∉ S))
          have hmemS : ((adjKeys la).filter
              (fun x => !(decide (x ∉ S)))).length ≤ S.length := by
            apply nodup_length_le_of_subset
            · exact hk.filter _
            · intro x hx
              have hdec := (List.mem_filter.mp hx).2
              simp at hdec
              exact hdec
          omega
        have hfal : 100 - S.length ≤
            (shuffle ((adjKeys la).filter (fun n => decide (n ∉ S)))).length := by
          omega
        constructor
        · rw [List.length_append, List.length_take]
          omega
        · rw [List.nodup_append]
          have hexnd :
              (shuffle ((adjKeys la).filter
                (fun n => decide (n ∉ S)))).Nodup :=
            ((hsh _).nodup_iff).mpr (hk.filter _)
          refine ⟨hSnd, (List.take_sublist _ _).nodup hexnd, ?_⟩
          intro a haS hatake
          have haex : a ∈ shuffle ((adjKeys la).filter
              (fun n => decide (n ∉ S))) :=
            (List.take_sublist _ _).mem hatake
          have hafil : a ∈ (adjKeys la).filter (fun n => decide (n ∉ S)) :=
            (hsh _).mem_iff.mp haex
          have hdec := (List.mem_filter.mp hafil).2
          simp at hdec
          exact hdec haS
      · rw [hres, if_neg hSl]
        exact ⟨by omega, hSnd⟩
    refine ⟨fun _ => hmain, fun hlt => absurd hlt (by omega), fun hla => ?_⟩
    subst hla
    simp [adjKeys] at hle

theorem samplerSize_witness :
    (∀ l : List Node, List.Perm (id l) l) ∧
    (adjKeys [(0, []), (1, []), (2, [])]).Nodup ∧
    ((100 ≤ (adjKeys [(0, []), (1, []), (2, [])]).length →
      (subgrafoNodos [(0, []), (1, []), (2, [])] id 0).length = 100 ∧
      (subgrafoNodos [(0, []), (1, []), (2, [])] id 0).Nodup) ∧
    ((adjKeys [(0, []), (1, []), (2, [])]).length < 100 →
      subgrafoNodos [(0, []), (1, []), (2, [])] id 0 =
        adjKeys [(0, []), (1, []), (2, [])]) ∧
    ([(0, []), (1, []), (2, [])] = ([] : AdjMap) →
      subgrafoNodos [(0, []), (1, []), (2, [])] id 0 = [])) :=
  ⟨fun l => List.Perm.refl l, by decide,
    samplerSize _ id (fun l => List.Perm.refl l) 0 (by decide)⟩
